import Mathlib

/-!
# discord-embedder: the media pipeline of `main.go`

A shallow embedding of `handleEmbed` and the methods of `video`
(`download`, `find`, `delete`, `codec`, `convert`, `compress`, `trim`).

* Go `int` is the 64-bit signed integer; arithmetic wraps (`wrapInt`), `/` truncates
  towards zero (`Int.tdiv`), division by zero is a run-time crash.
* Go strings are modelled by Lean strings; `strings.HasPrefix`, `strings.SplitN`,
  `strconv.Atoi`, `strconv.Itoa` and `hex.EncodeToString` are written out.
* External processes and the operating system are parameters (`Env`): every call may
  succeed or fail, and a process may change the working directory arbitrarily.
* The working directory is the list of entry names that `filepath.Walk(".")` visits.
* Everything observable is appended to a chronological trace of `Event`s.
-/

namespace Embedder

/-! ## Go library functions -/

deriving instance DecidableEq for Except

/-- Lowest value of the Go type `int` (64 bit). -/
def intMin : Int := -(2 ^ 63)

/-- Highest value of the Go type `int` (64 bit). -/
def intMax : Int := 2 ^ 63 - 1

/-- Two's-complement wrap-around of a mathematical integer into the Go type `int`. -/
def wrapInt (x : Int) : Int := (x + 2 ^ 63) % 2 ^ 64 - 2 ^ 63

/-- Value of a string of ASCII digits, most significant digit first. -/
def digitsValue (ds : List Char) : Nat :=
  ds.foldl (fun n c => n * 10 + (c.toNat - 48)) 0

/-- Go `strconv.Atoi` for the 64-bit `int`: an optional sign followed by at least one
ASCII digit; a value outside the range of `int` is a range error. -/
def atoi (s : String) : Except String Int :=
  let body : Bool × List Char :=
    match s.data with
    | '-' :: r => (true, r)
    | '+' :: r => (false, r)
    | cs => (false, cs)
  if body.2.isEmpty || !(body.2.all Char.isDigit) then
    .error "invalid syntax"
  else
    let v : Int := if body.1 then -(digitsValue body.2 : Int) else (digitsValue body.2 : Int)
    if v < intMin ∨ intMax < v then .error "value out of range" else .ok v

/-- Whether a string is a decimal integer numeral: an optional sign, then at least one ASCII
digit. -/
def isDecimal (s : String) : Bool :=
  match s.data with
  | '-' :: r => !r.isEmpty && r.all Char.isDigit
  | '+' :: r => !r.isEmpty && r.all Char.isDigit
  | cs => !cs.isEmpty && cs.all Char.isDigit

/-- Go `strconv.Itoa`: the decimal numeral of an `int`, with `-` for negatives. -/
def itoa (i : Int) : String := toString i

/-- Go `strings.SplitN(s, ".", 2)[0]`: the text before the first `.` (all of `s` when
there is none). -/
def beforeDot (s : String) : String := String.mk (s.data.takeWhile (fun c => c != '.'))

/-- Go `strings.HasPrefix(s, p)`. -/
def hasPrefix (s p : String) : Bool := p.data.isPrefixOf s.data

/-- Go `strings.Contains(s, sub)`. -/
def containsStr (s sub : String) : Bool := decide (sub.data <:+: s.data)

/-- Go `strings.TrimPrefix(s, p)`. -/
def trimPrefix (s p : String) : String :=
  if hasPrefix s p then String.mk (s.data.drop p.data.length) else s

/-- UTF-8 bytes of one character (`[]byte(s)` yields them for every character of `s`). -/
def utf8Bytes (c : Char) : List Nat :=
  let v := c.toNat
  if v < 0x80 then [v]
  else if v < 0x800 then [0xC0 + v / 64, 0x80 + v % 64]
  else if v < 0x10000 then [0xE0 + v / 4096, 0x80 + v / 64 % 64, 0x80 + v % 64]
  else [0xF0 + v / 262144, 0x80 + v / 4096 % 64, 0x80 + v / 64 % 64, 0x80 + v % 64]

/-- One entry of the `hextable` of `encoding/hex`. -/
def hexDigit (n : Nat) : Char := "0123456789abcdef".data.getD n '0'

/-- Go `hex.EncodeToString([]byte(s))`: two lower-case hex digits per byte. -/
def hexEncode (s : String) : String :=
  String.mk (s.data.flatMap (fun c =>
    (utf8Bytes c).flatMap (fun b => [hexDigit (b / 16), hexDigit (b % 16)])))

/-! ## Data model -/

/-- The names `filepath.Walk(".")` visits, in visiting order. -/
abbrev Dir := List String

/-- What a run does that can be observed from outside, in chronological order. -/
inductive Event where
  /-- An external process was started with this command line. -/
  | exec (args : List String)
  /-- A line written with `log.Printf`. -/
  | log (msg : String)
  /-- A successful `InteractionRespond` with the deferred acknowledgement. -/
  | deferred
  /-- An `InteractionResponseEdit` with a text content. -/
  | respond (content : String)
  /-- A successful `InteractionResponseEdit` with the file of this name attached. -/
  | uploaded (fileName : String)
  /-- A successful `MessageReactionAdd`. -/
  | react
  /-- A successful `os.Remove` of this name. -/
  | removed (name : String)
  /-- An assignment of this value to `video.Name`. -/
  | setName (name : String)
  /-- A run-time crash (nil dereference, division by zero). -/
  | crash
  deriving DecidableEq, Repr

/-- The struct `video` without its URL: `File` is `none` for a nil `*os.File` and otherwise
the name the handle was opened with, which is what `File.Name()` returns. -/
structure Video where
  Name : String
  File : Option String
  deriving DecidableEq, Repr

/-- The result of `url.Parse`: what `Hostname()` and `String()` return. -/
structure URL where
  hostname : String
  text : String
  deriving DecidableEq, Repr

/-- The options of one `/embed` command, and what `url.Parse` makes of the `url` option. -/
structure Request where
  url : String
  parsed : Except String URL
  start : Option String
  stop : Option String

/-- The world outside the program. Each field is one fallible operation. -/
structure Env where
  /-- The entry names `filepath.Walk("cookies", ...)` visits, or the error of the walk. -/
  cookieWalk : Except String (List String)
  /-- The call `exec.Command(args...).Run()` or `.Output()` in a directory: the standard
  output or the error, and the directory afterwards. -/
  exec : List String → Dir → Except String String × Dir
  /-- The error `filepath.Walk(".")` hands to the callback for an entry, if any. -/
  lstat : String → Dir → Option String
  /-- The error of `os.Open(name)`, if any. -/
  osOpen : String → Dir → Option String
  /-- The error of `File.Close()`, if any. -/
  osClose : String → Option String
  /-- The error of `os.Remove(name)`, if any, and the directory afterwards. -/
  osRemove : String → Dir → Option String × Dir
  /-- The size `File.Stat()` followed by `Size()` reports, or the error. -/
  stat : String → Dir → Except String Int
  /-- The error of the deferred `InteractionRespond`, if any. -/
  ack : Option String
  /-- The error of an `InteractionResponseEdit` with this text, if any. -/
  edit : String → Option String
  /-- The error of the `InteractionResponseEdit` that attaches the named file, if any. -/
  upload : String → Option String
  /-- The error of `MessageReactionAdd`, if any. -/
  react : Option String

/-- The state of one run. -/
structure St where
  dir : Dir
  v : Video
  trace : List Event
  deriving DecidableEq, Repr

/-- How a Go call ends: a value, a returned `error`, or a run-time crash. -/
inductive Res (α : Type) where
  | ok (a : α)
  | err (e : String)
  | crash
  deriving DecidableEq, Repr

/-- Appends one event to the trace. -/
def St.emit (st : St) (e : Event) : St := { st with trace := st.trace ++ [e] }

/-- The effect of `log.Printf`. -/
def St.log (st : St) (msg : String) : St := st.emit (.log msg)

/-- Sends a text to the user with `InteractionResponseEdit`; a failure is only logged. -/
def St.say (st : St) (env : Env) (content : String) : St :=
  match env.edit content with
  | some e => (st.emit (.respond content)).log ("could not respond to interaction: " ++ e)
  | none => st.emit (.respond content)

/-- Runs an external command: records it, and takes the directory it leaves behind. -/
def St.run (st : St) (env : Env) (args : List String) : Except String String × St :=
  ((env.exec args st.dir).1, { (st.emit (.exec args)) with dir := (env.exec args st.dir).2 })

/-! ## The methods of `video` -/

/-- The callback of `filepath.Walk(".")` in `find`, applied to the entries in turn, starting
from the current value of `v.File`: the error that ended the walk, if any, and the value of
`v.File` afterwards. A failed `os.Open` assigns nil to `v.File`. -/
def findWalk (env : Env) (dir : Dir) (name : String) :
    List String → Option String → Option String × Option String
  | [], file => (none, file)
  | entry :: rest, file =>
    match env.lstat entry dir with
    | some e => (some e, file)
    | none =>
      if hasPrefix entry name then
        match env.osOpen entry dir with
        | some e => (some e, none)
        | none => findWalk env dir name rest (some entry)
      else findWalk env dir name rest file

/-- The method `find` (lines 438-462). -/
def find (env : Env) (st : St) : Res Unit × St :=
  let r := findWalk env st.dir st.v.Name st.dir st.v.File
  let st1 : St := { st with v := { st.v with File := r.2 } }
  match r.1 with
  | some e => (.err e, st1)
  | none =>
    if r.2.isNone then (.err "could not find video file", st1) else (.ok (), st1)

/-- The method `delete` (lines 464-475). `Close` on a nil handle returns an error, which is
logged; `Name` on a nil handle dereferences it. -/
def delete (env : Env) (st : St) : Res Unit × St :=
  match st.v.File with
  | none => (.crash, (st.log "could not close file: invalid argument").emit .crash)
  | some f =>
    let st1 : St :=
      match env.osClose f with
      | some e => st.log ("could not close file: " ++ e)
      | none => st
    match (env.osRemove f st1.dir).1 with
    | some e => (.err e, { st1 with dir := (env.osRemove f st1.dir).2 })
    | none => (.ok (), { (st1.emit (.removed f)) with dir := (env.osRemove f st1.dir).2 })

/-- The command line of `codec` (line 479). -/
def codecCmd (file : String) : List String :=
  ["ffprobe", "-v", "error", "-select_streams", "v:0", "-show_entries", "stream=codec_name",
    "-of", "default=noprint_wrappers=1:nokey=1", file]

/-- The method `codec` (lines 477-487): the standard output of the probe, unmodified. -/
def codec (env : Env) (st : St) : Res String × St :=
  match st.v.File with
  | none => (.crash, st.emit .crash)
  | some f =>
    match st.run env (codecCmd f) with
    | (.error e, st1) => (.err e, st1)
    | (.ok out, st1) => (.ok out, st1)

/-- The three statements that end `convert`, `compress` and `trim` alike (lines 497-510,
549-562, 573-586): delete the original, append the suffix to the name, find the new file. -/
def supersede (env : Env) (suffix : String) (st : St) : Res Unit × St :=
  match delete env st with
  | (.ok _, st1) =>
    find env ({ st1 with v := { st1.v with Name := st1.v.Name ++ suffix } }.emit
      (.setName (st1.v.Name ++ suffix)))
  | (.err e, st1) => (.err e, st1)
  | (.crash, st1) => (.crash, st1)

/-- The command line of `convert` (line 491). -/
def convertCmd (file name : String) : List String :=
  ["ffmpeg", "-i", file, "-c:v", "libx264", "-c:a", "aac", "-b:a", "160k",
    name ++ "-convert.mp4"]

/-- The method `convert` (lines 489-511). -/
def convert (env : Env) (st : St) : Res Unit × St :=
  match st.v.File with
  | none => (.crash, st.emit .crash)
  | some f =>
    match st.run env (convertCmd f st.v.Name) with
    | (.error e, st1) => (.err e, st1)
    | (.ok _, st1) => supersede env "-convert" st1

/-- The command line of the duration probe in `compress` (line 516). -/
def durationCmd (file : String) : List String :=
  ["ffprobe", "-v", "error", "-show_entries", "format=duration",
    "-of", "default=noprint_wrappers=1:nokey=1", file]

/-- Lines 523-528: `strconv.Atoi(strings.SplitN(out, ".", 2)[0])`, then `length + 1`. -/
def compressLength (out : String) : Except String Int :=
  match atoi (beforeDot out) with
  | .error e => .error e
  | .ok n => .ok (wrapInt (n + 1))

/-- Line 531: `25 * 1000 * 1000 * 8`. -/
def targetSize : Int := 25 * 1000 * 1000 * 8

/-- Line 533: `128 * 1000`. -/
def audioBitrate : Int := 128 * 1000

/-- Line 532: `targetSize / length` (for `length` other than zero). -/
def totalBitrate (length : Int) : Int := wrapInt (Int.tdiv targetSize length)

/-- Line 534: `totalBitrate - audioBitrate`. -/
def videoBitrate (length : Int) : Int := wrapInt (totalBitrate length - audioBitrate)

/-- The command line of the encoder in `compress` (lines 536-543). -/
def compressCmd (file name : String) (length : Int) : List String :=
  ["ffmpeg", "-i", file,
    "-b:v", itoa (videoBitrate length),
    "-maxrate:v", itoa (videoBitrate length),
    "-bufsize:v", itoa (wrapInt (Int.tdiv targetSize 20)),
    "-b:a", itoa audioBitrate,
    name ++ "-compress.mp4"]

/-- The method `compress` (lines 513-563). -/
def compress (env : Env) (st : St) : Res Unit × St :=
  match st.v.File with
  | none => (.crash, st.emit .crash)
  | some f =>
    match st.run env (durationCmd f) with
    | (.error e, st1) => (.err e, st1)
    | (.ok out, st1) =>
      match compressLength out with
      | .error e => (.err e, st1)
      | .ok length =>
        if length = 0 then (.crash, st1.emit .crash)
        else
          match st1.run env (compressCmd f st1.v.Name length) with
          | (.error e, st2) => (.err e, st2)
          | (.ok _, st2) => supersede env "-compress" st2

/-- The command line of `trim` (line 567). -/
def trimCmd (start stop file name : String) : List String :=
  ["ffmpeg", "-ss", start, "-to", stop, "-i", file, name ++ "-trim.mp4"]

/-- The method `trim` (lines 565-587). -/
def trim (env : Env) (start stop : String) (st : St) : Res Unit × St :=
  match st.v.File with
  | none => (.crash, st.emit .crash)
  | some f =>
    match st.run env (trimCmd start stop f st.v.Name) with
    | (.error e, st1) => (.err e, st1)
    | (.ok _, st1) => supersede env "-trim" st1

/-- The cookie file `download` settles on (lines 400-412): the last visited name that
contains the domain, or the empty string. -/
def cookieFileName (domain : String) (names : List String) : String :=
  names.foldl (fun acc n => if containsStr n domain then n else acc) ""

/-- The command line of `download` (lines 419-424). -/
def downloadCmd (name : String) (u : URL) (cookie : String) : List String :=
  if cookie = "" then ["yt-dlp", "-o", name ++ ".%(ext)s", u.text]
  else ["yt-dlp", "-o", name ++ ".%(ext)s", "--cookies", "cookies/" ++ cookie, u.text]

/-- The method `download` (lines 394-436). -/
def download (env : Env) (u : URL) (st : St) : Res Unit × St :=
  match env.cookieWalk with
  | .error e => (.err e, st)
  | .ok names =>
    let cookie := cookieFileName (trimPrefix u.hostname "www.") names
    let st0 : St := if cookie = "" then st else st.log ("using cookie file: " ++ cookie)
    match st0.run env (downloadCmd st.v.Name u cookie) with
    | (.error e, st1) => (.err e, st1)
    | (.ok _, st1) => find env st1

/-! ## `handleEmbed` -/

/-- How a part of `handleEmbed` ends: control goes on to the next statement, the handler
returns, or the goroutine crashes. -/
inductive Flow where
  | next
  | stop
  | crash
  deriving DecidableEq, Repr

/-- Lines 306-319: trim when both bounds are given. -/
def trimStage (env : Env) (req : Request) (st : St) : Flow × St :=
  match req.start, req.stop with
  | some s, some e =>
    match st.v.File with
    | none => (.crash, st.emit .crash)
    | some f =>
      match trim env s e (st.log ("trimming video: " ++ f)) with
      | (.ok _, st1) => (.next, st1)
      | (.err m, st1) => (.stop, st1.say env ("could not trim video: " ++ m))
      | (.crash, st1) => (.crash, st1)
  | _, _ => (.next, st)

/-- Lines 326-338: what `handleEmbed` does with the result of `codec`. -/
def codecDecide (env : Env) (r : Res String) (st : St) : Flow × St :=
  match r with
  | .crash => (.crash, st)
  | .err e => (.next, st.log ("could not get codec: " ++ e))
  | .ok c =>
    if c != "h264" then
      match st.v.File with
      | none => (.crash, st.emit .crash)
      | some f =>
        match convert env (st.log ("converting video: " ++ f)) with
        | (.ok _, st1) => (.next, st1)
        | (.err m, st1) => (.stop, st1.say env ("could not convert video: " ++ m))
        | (.crash, st1) => (.crash, st1)
    else (.next, st)

/-- Lines 321-339: probe the codec and convert unless it is `h264`. -/
def codecStage (env : Env) (st : St) : Flow × St :=
  codecDecide env (codec env st).1 (codec env st).2

/-- Line 345: the size above which the file is compressed. -/
def sizeLimit : Int := 25 * 1000 * 1000

/-- Lines 341-358: compress when the file is larger than the limit. `Stat` on a nil handle
returns an error. -/
def sizeStage (env : Env) (st : St) : Flow × St :=
  match st.v.File with
  | none => (.next, st.log "could not get file info: invalid argument")
  | some f =>
    match env.stat f st.dir with
    | .error e => (.next, st.log ("could not get file info: " ++ e))
    | .ok size =>
      if size > sizeLimit then
        match compress env (st.log ("compressing video: " ++ f)) with
        | (.ok _, st1) => (.next, st1)
        | (.err m, st1) => (.stop, st1.say env ("could not compress video: " ++ m))
        | (.crash, st1) => (.crash, st1)
      else (.next, st)

/-- Lines 360-385: upload the file and add the reaction. -/
def deliver (env : Env) (st : St) : Flow × St :=
  match st.v.File with
  | none => (.crash, st.emit .crash)
  | some f =>
    match env.upload f with
    | some _ =>
      (.stop, (st.log ("responding with video: " ++ f)).say env "Could not upload to Discord!")
    | none =>
      match env.react with
      | some e =>
        (.next, (((st.log ("responding with video: " ++ f)).emit (.uploaded f)).log
          ("could not add reaction to message: " ++ e)))
      | none =>
        (.next, (((st.log ("responding with video: " ++ f)).emit (.uploaded f)).emit .react))

/-- Lines 306-385: what runs between the registration of the deferred `delete` and the
return of the handler. -/
def body (env : Env) (req : Request) (st : St) : Flow × St :=
  match trimStage env req st with
  | (.next, st1) =>
    match codecStage env st1 with
    | (.next, st2) =>
      match sizeStage env st2 with
      | (.next, st3) => deliver env st3
      | r => r
    | r => r
  | r => r

/-- Lines 300-304: the deferred call, which runs however `body` ended. -/
def cleanup (env : Env) (r : Flow × St) : Flow × St :=
  match delete env r.2 with
  | (.ok _, st) => (r.1, st)
  | (.err e, st) => (r.1, st.log ("could not delete video: " ++ e))
  | (.crash, st) => (.crash, st)

/-- The state in which `handleEmbed` starts in the given working directory. -/
def initial (req : Request) (dir : Dir) : St :=
  { dir := dir, v := { Name := hexEncode req.url, File := none }, trace := [] }

/-- The handler `handleEmbed` (lines 262-386). -/
def handleEmbed (env : Env) (req : Request) (dir : Dir) : Flow × St :=
  let st1 : St :=
    match env.ack with
    | some e => (initial req dir).log ("could not respond to interaction: " ++ e)
    | none => (initial req dir).emit .deferred
  match req.parsed with
  | .error e => (.stop, st1.say env ("could not parse url: " ++ e))
  | .ok u =>
    match download env u ((st1.emit (.setName (hexEncode req.url))).log
        ("downloading video: " ++ u.text)) with
    | (.err m, st2) => (.stop, st2.say env ("could not download video: " ++ m))
    | (.crash, st2) => (.crash, st2)
    | (.ok _, st2) => cleanup env (body env req st2)

/-! ## Example worlds -/

/-- An example world in which every operation does what it is meant to: `yt-dlp` writes
`<name>.webm`, `ffmpeg` writes the file named by its last argument, the codec probe ends as
given, the duration probe prints `durationOut`, every file has `size` bytes, and files can be
opened and removed exactly when they exist. -/
def calmEnv (codecOut : Except String String) (durationOut : String) (size : Int) : Env where
  cookieWalk := .ok ["cookies"]
  exec := fun args dir =>
    match args with
    | "yt-dlp" :: "-o" :: tmpl :: _ =>
      (.ok "", dir ++ [String.mk (tmpl.data.take (tmpl.data.length - 8)) ++ ".webm"])
    | "ffmpeg" :: rest => (.ok "", dir ++ [("ffmpeg" :: rest).getLastD ""])
    | "ffprobe" :: rest =>
      if "stream=codec_name" ∈ rest then (codecOut, dir) else (.ok durationOut, dir)
    | _ => (.error "executable file not found", dir)
  lstat := fun _ _ => none
  osOpen := fun name dir => if name ∈ dir then none else some "no such file or directory"
  osClose := fun _ => none
  osRemove := fun name dir =>
    if name ∈ dir then (none, dir.filter (fun x => x != name))
    else (some "no such file or directory", dir)
  stat := fun _ _ => .ok size
  ack := none
  edit := fun _ => none
  upload := fun _ => none
  react := none

/-- The world of `calmEnv` with an encoder that reports success without writing its output
file. -/
def lossyEnv (codecOut : Except String String) (durationOut : String) (size : Int) : Env :=
  { calmEnv codecOut durationOut size with
    exec := fun args dir =>
      match args with
      | "ffmpeg" :: _ => (.ok "", dir)
      | _ => (calmEnv codecOut durationOut size).exec args dir }

/-- The world of `calmEnv` with a directory from which nothing can be removed. -/
def stubbornEnv (codecOut : Except String String) (durationOut : String) (size : Int) : Env :=
  { calmEnv codecOut durationOut size with
    osRemove := fun _ dir => (some "operation not permitted", dir) }

/-- An example request without trim bounds; the hex encoding of its URL is `75`. -/
def sampleRequest : Request :=
  { url := "u", parsed := .ok { hostname := "example.com", text := "u" },
    start := none, stop := none }

/-- The events of `after` that `before` does not have yet. -/
def St.since (before after : St) : List Event := after.trace.drop before.trace.length

/-! ## Names and removals in a trace -/

/-- The values assigned to `video.Name` in the course of a trace, in order. -/
def names (tr : List Event) : List String :=
  tr.filterMap (fun e => match e with
    | .setName n => some n
    | _ => none)

/-- The names removed with success in the course of a trace, in order. -/
def removals (tr : List Event) : List String :=
  tr.filterMap (fun e => match e with
    | .removed n => some n
    | _ => none)

/-- The suffix of a stage that ran (`true`) or did not run (`false`). -/
def stageSuffix (ran : Bool) (suffix : String) : String := if ran then suffix else ""

/-- The base name followed by the suffixes of the stages that ran, in pipeline order. -/
def stageName (base : String) (trimmed converted compressed : Bool) : String :=
  base ++ stageSuffix trimmed "-trim" ++ stageSuffix converted "-convert" ++
    stageSuffix compressed "-compress"

/-- The state `st2` has the name of `st1` and no further assignment to it. -/
def SameName (st1 st2 : St) : Prop :=
  st2.v.Name = st1.v.Name ∧ names st2.trace = names st1.trace

/-- The state `st2` has the name of `st1`, or that name extended once by `sfx`. -/
def NameStep (sfx : String) (st1 st2 : St) : Prop :=
  SameName st1 st2 ∨
    (st2.v.Name = st1.v.Name ++ sfx ∧ names st2.trace = names st1.trace ++ [st1.v.Name ++ sfx])

/-- The name and the assignments to it after the three stages, whichever of them ran. -/
def NameChain (req : Request) (st st3 : St) : Prop :=
  ∃ t c p : Bool,
    st3.v.Name = stageName st.v.Name t c p ∧
    names st3.trace = names st.trace ++
      ((if t then [stageName st.v.Name true false false] else []) ++
       (if c then [stageName st.v.Name t true false] else []) ++
       (if p then [stageName st.v.Name t c true] else [])) ∧
    (t = true → req.start ≠ none ∧ req.stop ≠ none)

/-! ## Worlds that keep to the contract of the tools -/

/-- A world in which the file system and the tools keep to their contract: walking never
fails, a file that exists can be opened, removing a file that exists succeeds and removes
exactly that name, the probes leave the directory alone, a failed fetch or encoder leaves
nothing behind, a successful fetch adds one file `<name>.<ext>` and a successful encoder adds
the file named by its last argument. -/
structure Orderly (env : Env) : Prop where
  lstat_ok : ∀ (name : String) (dir : Dir), env.lstat name dir = none
  open_ok : ∀ (name : String) (dir : Dir), name ∈ dir → env.osOpen name dir = none
  remove_ok : ∀ (name : String) (dir : Dir), name ∈ dir →
    (env.osRemove name dir).1 = none ∧
    ∀ x, x ∈ (env.osRemove name dir).2 ↔ (x ∈ dir ∧ x ≠ name)
  codec_probe : ∀ (f : String) (dir : Dir) (x : String),
    x ∈ (env.exec (codecCmd f) dir).2 ↔ x ∈ dir
  duration_probe : ∀ (f : String) (dir : Dir) (x : String),
    x ∈ (env.exec (durationCmd f) dir).2 ↔ x ∈ dir
  fetch : ∀ (name : String) (u : URL) (cookie : String) (dir : Dir),
    match (env.exec (downloadCmd name u cookie) dir).1 with
    | .error _ => ∀ x, x ∈ (env.exec (downloadCmd name u cookie) dir).2 ↔ x ∈ dir
    | .ok _ => ∃ ext : String,
        ∀ x, x ∈ (env.exec (downloadCmd name u cookie) dir).2 ↔
          (x ∈ dir ∨ x = name ++ "." ++ ext)
  encode : ∀ (args : List String) (dir : Dir), args.head? = some "ffmpeg" →
    match (env.exec args dir).1 with
    | .error _ => ∀ x, x ∈ (env.exec args dir).2 ↔ x ∈ dir
    | .ok _ => ∀ x, x ∈ (env.exec args dir).2 ↔ (x ∈ dir ∨ x = args.getLastD "")

/-- The state of a run between two stages in an orderly world, for the base name `base`:
the handle is open on `<Name>.<ext>`, that file exists and is the only entry of the
directory that starts with `base`, the name starts with `base`, and nothing removed so far
starts with the name. -/
def Tidy (base : String) (st : St) : Prop :=
  ∃ ext : String,
    st.v.File = some (st.v.Name ++ "." ++ ext) ∧
    (st.v.Name ++ "." ++ ext) ∈ st.dir ∧
    (∀ x ∈ st.dir, hasPrefix x base = true → x = st.v.Name ++ "." ++ ext) ∧
    hasPrefix st.v.Name base = true ∧
    (∀ r ∈ removals st.trace, hasPrefix r st.v.Name = false)

/-! ## Integers and numerals -/

theorem wrapInt_of_range (x : Int) (h1 : intMin ≤ x) (h2 : x ≤ intMax) : wrapInt x = x := by
  unfold wrapInt
  unfold intMin at h1
  unfold intMax at h2
  omega

theorem digitChar_isDigit (k : Nat) (h : k < 10) :
    (Nat.digitChar k).isDigit = true ∧ (Nat.digitChar k).toNat - 48 = k := by
  interval_cases k <;> decide

theorem toDigitsCore_append (fuel : Nat) : ∀ (n : Nat) (ds : List Char),
    Nat.toDigitsCore 10 fuel n ds = Nat.toDigitsCore 10 fuel n [] ++ ds := by
  induction fuel with
  | zero => intro n ds; simp [Nat.toDigitsCore]
  | succ f ih =>
    intro n ds
    simp only [Nat.toDigitsCore]
    split
    · simp
    · rw [ih (n / 10) (Nat.digitChar (n % 10) :: ds), ih (n / 10) [Nat.digitChar (n % 10)]]
      simp

theorem digitsValue_append (l : List Char) (c : Char) :
    digitsValue (l ++ [c]) = digitsValue l * 10 + (c.toNat - 48) := by
  simp [digitsValue, List.foldl_append]

theorem toDigitsCore_spec (fuel : Nat) : ∀ n : Nat, n < fuel →
    digitsValue (Nat.toDigitsCore 10 fuel n []) = n ∧
    (Nat.toDigitsCore 10 fuel n []).all Char.isDigit = true ∧
    Nat.toDigitsCore 10 fuel n [] ≠ [] := by
  induction fuel with
  | zero => intro n h; omega
  | succ f ih =>
    intro n h
    have hd := digitChar_isDigit (n % 10) (Nat.mod_lt _ (by decide))
    simp only [Nat.toDigitsCore]
    split
    · rename_i h0
      refine ⟨?_, ?_, by simp⟩
      · simp [digitsValue, hd.2]; omega
      · simp [hd.1]
    · rename_i h0
      have hlt : n / 10 < f := by omega
      obtain ⟨h1, h2, h3⟩ := ih (n / 10) hlt
      rw [toDigitsCore_append f (n / 10) [Nat.digitChar (n % 10)]]
      refine ⟨?_, ?_, by simp [h3]⟩
      · rw [digitsValue_append, h1, hd.2]; omega
      · simp only [List.all_append, h2, List.all_cons, hd.1, List.all_nil]; rfl

theorem atoi_digits (ds : List Char) (hne : ds ≠ []) (hall : ds.all Char.isDigit = true) :
    atoi (String.mk ds) =
      if (digitsValue ds : Int) < intMin ∨ intMax < (digitsValue ds : Int)
      then .error "value out of range" else .ok (digitsValue ds : Int) := by
  cases ds with
  | nil => exact absurd rfl hne
  | cons c r =>
    have hc : c.isDigit = true := by simp at hall; exact hall.1
    have h1 : c ≠ '-' := by rintro rfl; exact absurd hc (by decide)
    have h2 : c ≠ '+' := by rintro rfl; exact absurd hc (by decide)
    unfold atoi
    split
    · rename_i heq; simp at heq; exact absurd heq.1 h1
    · rename_i heq; simp at heq; exact absurd heq.1 h2
    · simp [hall]

theorem repr_spec (m : Nat) : digitsValue (Nat.toDigits 10 m) = m ∧
    (Nat.toDigits 10 m).all Char.isDigit = true ∧ Nat.toDigits 10 m ≠ [] :=
  toDigitsCore_spec (m + 1) m (Nat.lt_succ_self m)

theorem atoi_itoa_all (n : Int) : atoi (itoa n) =
    if n < intMin ∨ intMax < n then .error "value out of range" else .ok n := by
  cases n with
  | ofNat m =>
    have : itoa (Int.ofNat m) = String.mk (Nat.toDigits 10 m) := rfl
    rw [this, atoi_digits _ (repr_spec m).2.2 (repr_spec m).2.1, (repr_spec m).1]
    rfl
  | negSucc m =>
    have : itoa (Int.negSucc m) = String.mk ('-' :: Nat.toDigits 10 (m + 1)) := rfl
    rw [this]
    obtain ⟨hv, hall, hne⟩ := repr_spec (m + 1)
    unfold atoi
    simp only [hall, hv]
    have : (Nat.toDigits 10 (m + 1)).isEmpty = false := by
      cases h : Nat.toDigits 10 (m + 1) with
      | nil => exact absurd h hne
      | cons _ _ => rfl
    simp only [this]
    simp only [Bool.false_or, Bool.not_true, Bool.false_eq_true, if_false, if_true]
    rfl

theorem atoi_itoa (n : Int) (h1 : intMin ≤ n) (h2 : n ≤ intMax) : atoi (itoa n) = .ok n := by
  rw [atoi_itoa_all, if_neg (by omega)]

/-! ## Bitrate arithmetic -/

theorem totalBitrate_eq (D : Int) (hD : 1 ≤ D) :
    totalBitrate D = 200000000 / D ∧ 0 ≤ totalBitrate D ∧ totalBitrate D ≤ 200000000 := by
  have ht : targetSize = 200000000 := by decide
  have h1 : Int.tdiv 200000000 D = 200000000 / D := Int.tdiv_eq_ediv (by decide) (by omega)
  have h2 : (0 : Int) ≤ 200000000 / D := Int.ediv_nonneg (by decide) (by omega)
  have h3 : (200000000 : Int) / D ≤ 200000000 := Int.ediv_le_self _ (by decide)
  have h4 : totalBitrate D = 200000000 / D := by
    unfold totalBitrate
    rw [ht, h1]
    apply wrapInt_of_range
    · unfold intMin; omega
    · unfold intMax; omega
  rw [h4]
  exact ⟨rfl, h2, h3⟩

theorem videoBitrate_eq (D : Int) (hD : 1 ≤ D) : videoBitrate D = 200000000 / D - 128000 := by
  obtain ⟨h1, h2, h3⟩ := totalBitrate_eq D hD
  have ha : audioBitrate = 128000 := by decide
  unfold videoBitrate
  rw [ha, ← h1]
  apply wrapInt_of_range
  · unfold intMin; omega
  · unfold intMax; omega

/-! ## Traces of the methods -/

@[simp] theorem emit_trace (st : St) (e : Event) : (st.emit e).trace = st.trace ++ [e] := rfl
@[simp] theorem emit_dir (st : St) (e : Event) : (st.emit e).dir = st.dir := rfl
@[simp] theorem emit_v (st : St) (e : Event) : (st.emit e).v = st.v := rfl
@[simp] theorem log_trace (st : St) (m : String) : (st.log m).trace = st.trace ++ [.log m] := rfl
@[simp] theorem log_dir (st : St) (m : String) : (st.log m).dir = st.dir := rfl
@[simp] theorem log_v (st : St) (m : String) : (st.log m).v = st.v := rfl
@[simp] theorem say_dir (st : St) (env : Env) (m : String) : (st.say env m).dir = st.dir := by
  unfold St.say; split <;> rfl
@[simp] theorem say_v (st : St) (env : Env) (m : String) : (st.say env m).v = st.v := by
  unfold St.say; split <;> rfl
@[simp] theorem run_trace (st : St) (env : Env) (a : List String) :
    (st.run env a).2.trace = st.trace ++ [.exec a] := rfl
@[simp] theorem run_v (st : St) (env : Env) (a : List String) : (st.run env a).2.v = st.v := rfl
@[simp] theorem run_dir (st : St) (env : Env) (a : List String) :
    (st.run env a).2.dir = (env.exec a st.dir).2 := rfl
@[simp] theorem run_fst (st : St) (env : Env) (a : List String) :
    (st.run env a).1 = (env.exec a st.dir).1 := rfl

theorem find_trace (env : Env) (st : St) : (find env st).2.trace = st.trace := by
  unfold find
  simp only
  split
  · rfl
  · split <;> rfl

theorem delete_trace (env : Env) (st : St) : st.trace <+: (delete env st).2.trace := by
  unfold delete
  split
  · simp
  · simp only
    split <;> split <;> simp

theorem supersede_trace (env : Env) (sfx : String) (st : St) :
    st.trace <+: (supersede env sfx st).2.trace := by
  have hd := delete_trace env st
  unfold supersede
  split
  · rename_i u st1 heq
    rw [heq] at hd
    rw [find_trace]
    exact hd.trans (by simp)
  · rename_i e st1 heq; rw [heq] at hd; exact hd
  · rename_i st1 heq; rw [heq] at hd; exact hd

/-- C1: for every divisor `D ≥ 1` the video bitrate is `(25,000,000 * 8) / D - 128,000` with
truncating integer division; `compress` passes its numeral to the encoder after `-b:v` and
after `-maxrate:v`; for `D = 60` it is 3,205,333. -/
theorem compress_video_bitrate (D : Int) (hD : 1 ≤ D) :
    videoBitrate D = Int.tdiv (25000000 * 8) D - 128000 ∧
    (∀ file name : String, compressCmd file name D =
      ["ffmpeg", "-i", file,
        "-b:v", itoa (Int.tdiv (25000000 * 8) D - 128000),
        "-maxrate:v", itoa (Int.tdiv (25000000 * 8) D - 128000),
        "-bufsize:v", "10000000", "-b:a", "128000", name ++ "-compress.mp4"]) ∧
    (∀ (env : Env) (st : St) (f out : String), st.v.File = some f →
      (env.exec (durationCmd f) st.dir).1 = .ok out → compressLength out = .ok D →
      Event.exec (compressCmd f st.v.Name D) ∈ (compress env st).2.trace) ∧
    videoBitrate 60 = 3205333 := by
  have h1 : Int.tdiv (25000000 * 8) D = 200000000 / D := Int.tdiv_eq_ediv (by decide) (by omega)
  have hv : videoBitrate D = Int.tdiv (25000000 * 8) D - 128000 := by
    rw [h1]; exact videoBitrate_eq D hD
  refine ⟨hv, ?_, ?_, by decide⟩
  · intro file name
    unfold compressCmd
    rw [hv]
    rfl
  · intro env st f out hf hout hlen
    have hD0 : D ≠ 0 := by omega
    unfold compress
    simp only [hf]
    split
    · rename_i e st1 heq
      have := congrArg Prod.fst heq
      simp [hout] at this
    · rename_i o st1 heq
      have h1 := congrArg Prod.fst heq
      have h2 := congrArg Prod.snd heq
      simp only [run_fst, hout] at h1
      cases h1
      subst h2
      simp only [hlen, hD0, if_false, run_v]
      split
      · rename_i e2 st2 heq2
        have h3 := congrArg Prod.snd heq2
        simp only at h3
        rw [← h3]
        simp
      · rename_i o2 st2 heq2
        have h3 := congrArg Prod.snd heq2
        simp only at h3
        apply (supersede_trace env "-compress" st2).subset
        rw [← h3]
        simp

/-- Witness for C1 at `D = 60`: a file whose duration probe prints `59.2`. -/
theorem compress_video_bitrate_witness :
    (1 : Int) ≤ 60 ∧ videoBitrate 60 = Int.tdiv (25000000 * 8) 60 - 128000 ∧
    videoBitrate 60 = 3205333 ∧
    Event.exec ["ffmpeg", "-i", "75.webm", "-b:v", "3205333", "-maxrate:v", "3205333",
        "-bufsize:v", "10000000", "-b:a", "128000", "75-compress.mp4"] ∈
      (compress (calmEnv (.ok "vp9\n") "59.2\n" 30000000)
        { dir := [".", "75.webm"], v := { Name := "75", File := some "75.webm" },
          trace := [] }).2.trace :=
  ⟨by decide, (compress_video_bitrate 60 (by decide)).1,
    (compress_video_bitrate 60 (by decide)).2.2.2,
    (compress_video_bitrate 60 (by decide)).2.2.1 (calmEnv (.ok "vp9\n") "59.2\n" 30000000)
      { dir := [".", "75.webm"], v := { Name := "75", File := some "75.webm" }, trace := [] }
      "75.webm" "59.2\n" (by decide) (by decide) (by decide)⟩

/-! ## The probed duration -/

theorem atoi_range (s : String) (n : Int) (h : atoi s = .ok n) : intMin ≤ n ∧ n ≤ intMax := by
  unfold atoi at h
  simp only at h
  split_ifs at h <;> (cases h; omega)

theorem atoi_not_decimal (s : String) (h : isDecimal s = false) :
    atoi s = .error "invalid syntax" := by
  unfold isDecimal at h
  unfold atoi
  split at h <;> simp_all

theorem compress_no_length (env : Env) (st : St) (f out e : String) (hf : st.v.File = some f)
    (hout : (env.exec (durationCmd f) st.dir).1 = .ok out)
    (hlen : compressLength out = .error e) :
    (compress env st).1 = .err e ∧
    (compress env st).2.trace = st.trace ++ [.exec (durationCmd f)] := by
  unfold compress
  simp only [hf]
  split
  · rename_i e1 st1 heq
    have := congrArg Prod.fst heq
    simp [hout] at this
  · rename_i o st1 heq
    have h1 := congrArg Prod.fst heq
    have h2 := congrArg Prod.snd heq
    simp only [run_fst, hout] at h1
    cases h1
    subst h2
    simp [hlen]

/-- C2, the refuted reading: the probed text `9223372036854775807.5` has the decimal
representation of `n = 2^63 - 1` before its first `.`, yet the duration used is `-2^63`, not
`n + 1`; and `99999999999999999999.5` has that of `n = 10^20 - 1`, yet no duration is
produced at all. -/
theorem compress_length_overflow :
    ¬ (∀ (out : String) (n : Int), beforeDot out = itoa n → compressLength out = .ok (n + 1)) ∧
    beforeDot "9223372036854775807.5" = itoa (2 ^ 63 - 1) ∧
    compressLength "9223372036854775807.5" = .ok (-(2 ^ 63)) ∧
    beforeDot "99999999999999999999.5" = itoa (10 ^ 20 - 1) ∧
    compressLength "99999999999999999999.5" = .error "value out of range" := by
  refine ⟨?_, by decide, by decide, by decide, by decide⟩
  intro h
  exact absurd (h "9223372036854775807.5" (2 ^ 63 - 1) (by decide)) (by decide)

/-- C2, amended: when the text before the first `.` of the probe output is the decimal
representation of an integer `n` with `-2^63 ≤ n < 2^63 - 1`, the duration used is `n + 1`;
the probed string `125.7` yields 126; when that text is not a decimal integer, or is one
outside the range of `int`, `compress` returns an error after the probe and runs no
encoder. -/
theorem compress_length_of_numeral (out : String) (n : Int) (hrep : beforeDot out = itoa n)
    (hlo : intMin ≤ n) (hhi : n < intMax) :
    compressLength out = .ok (n + 1) ∧
    compressLength "125.7" = .ok 126 ∧
    (∀ (env : Env) (st : St) (f bad : String), st.v.File = some f →
      (env.exec (durationCmd f) st.dir).1 = .ok bad →
      (isDecimal (beforeDot bad) = false ∨
        ∃ m : Int, beforeDot bad = itoa m ∧ (m < intMin ∨ intMax < m)) →
      ∃ e, (compress env st).1 = .err e ∧
        (compress env st).2.trace = st.trace ++ [.exec (durationCmd f)]) := by
  refine ⟨?_, by decide, ?_⟩
  · unfold compressLength
    rw [hrep, atoi_itoa n hlo (by omega)]
    simp only
    rw [wrapInt_of_range (n + 1) (by omega) (by omega)]
  · intro env st f bad hf hout hbad
    have herr : ∃ e, compressLength bad = .error e := by
      unfold compressLength
      rcases hbad with hb | ⟨m, hm, hr⟩
      · rw [atoi_not_decimal _ hb]; exact ⟨_, rfl⟩
      · cases hq : atoi (beforeDot bad) with
        | error e => exact ⟨e, rfl⟩
        | ok k =>
          exfalso
          rw [hm, atoi_itoa_all, if_pos hr] at hq
          cases hq
    obtain ⟨e, he⟩ := herr
    exact ⟨e, compress_no_length env st f bad e hf hout he⟩

/-- C3: for every true duration `d ≥ 0` with integer part `n = ⌊d⌋`, the total bitrate
`(25,000,000 * 8) / (n + 1)` (integer division) spends at most `25,000,000 * 8` bits over
`d` seconds; and whenever the probe reports that integer part, it is the total bitrate
`compress` computes, the sum of its video and audio bitrates. -/
theorem compress_budget_kept (d : ℚ) (hd : 0 ≤ d) :
    ((targetSize / (⌊d⌋ + 1) : Int) : ℚ) * d ≤ (targetSize : ℚ) ∧
    targetSize = 25000000 * 8 ∧
    (∀ out : String, atoi (beforeDot out) = .ok ⌊d⌋ →
      compressLength out = .ok (wrapInt (⌊d⌋ + 1)) ∧
      videoBitrate (wrapInt (⌊d⌋ + 1)) + audioBitrate = totalBitrate (wrapInt (⌊d⌋ + 1)) ∧
      totalBitrate (wrapInt (⌊d⌋ + 1)) = targetSize / (⌊d⌋ + 1)) := by
  have hn0 : 0 ≤ ⌊d⌋ := Int.floor_nonneg.mpr hd
  have ht : targetSize = 200000000 := by decide
  refine ⟨?_, by decide, ?_⟩
  · have hmul : targetSize / (⌊d⌋ + 1) * (⌊d⌋ + 1) ≤ targetSize :=
      Int.ediv_mul_le _ (by omega)
    have hnn : (0 : Int) ≤ targetSize / (⌊d⌋ + 1) :=
      Int.ediv_nonneg (by decide) (by omega)
    have hdlt : d ≤ ((⌊d⌋ + 1 : Int) : ℚ) := by
      have := Int.lt_floor_add_one d
      push_cast
      exact le_of_lt this
    calc ((targetSize / (⌊d⌋ + 1) : Int) : ℚ) * d
        ≤ ((targetSize / (⌊d⌋ + 1) : Int) : ℚ) * ((⌊d⌋ + 1 : Int) : ℚ) :=
          mul_le_mul_of_nonneg_left hdlt (by exact_mod_cast hnn)
      _ ≤ (targetSize : ℚ) := by exact_mod_cast hmul
  · intro out hprobe
    have hr := atoi_range _ _ hprobe
    have hlen : compressLength out = .ok (wrapInt (⌊d⌋ + 1)) := by
      unfold compressLength; rw [hprobe]
    have key : totalBitrate (wrapInt (⌊d⌋ + 1)) = 200000000 / (⌊d⌋ + 1) ∧
        0 ≤ totalBitrate (wrapInt (⌊d⌋ + 1)) ∧
        totalBitrate (wrapInt (⌊d⌋ + 1)) ≤ 200000000 := by
      by_cases hmax : ⌊d⌋ = intMax
      · have h1 : wrapInt (⌊d⌋ + 1) = -(2 ^ 63) := by rw [hmax]; decide
        have h2 : totalBitrate (-(2 ^ 63)) = 0 := by decide
        have h3 : (200000000 : Int) / (⌊d⌋ + 1) = 0 := by rw [hmax]; decide
        rw [h1, h2, h3]
        exact ⟨rfl, le_refl _, by decide⟩
      · have hlt : ⌊d⌋ < intMax := lt_of_le_of_ne hr.2 hmax
        have h1 : wrapInt (⌊d⌋ + 1) = ⌊d⌋ + 1 :=
          wrapInt_of_range _ (by unfold intMin; omega) (by omega)
        rw [h1]
        exact totalBitrate_eq _ (by omega)
    obtain ⟨k1, k2, k3⟩ := key
    refine ⟨hlen, ?_, by rw [k1, ht]⟩
    have ha : audioBitrate = 128000 := by decide
    unfold videoBitrate
    rw [ha, wrapInt_of_range _ (by unfold intMin; omega) (by unfold intMax; omega)]
    omega

/-- Witness for C3: a true duration of 125.7 seconds, probed as `125.7`. -/
theorem compress_budget_kept_witness :
    (0 : ℚ) ≤ 1257 / 10 ∧
    ((targetSize / (⌊(1257 / 10 : ℚ)⌋ + 1) : Int) : ℚ) * (1257 / 10) ≤ (targetSize : ℚ) ∧
    totalBitrate (wrapInt (⌊(1257 / 10 : ℚ)⌋ + 1)) = targetSize / (⌊(1257 / 10 : ℚ)⌋ + 1) := by
  have hfloor : ⌊(1257 / 10 : ℚ)⌋ = 125 := by
    rw [Int.floor_eq_iff]; norm_num
  have hp : atoi (beforeDot "125.7") = .ok ⌊(1257 / 10 : ℚ)⌋ := by
    rw [hfloor]; decide
  exact ⟨by norm_num, (compress_budget_kept (1257 / 10) (by norm_num)).1,
    ((compress_budget_kept (1257 / 10) (by norm_num)).2.2 "125.7" hp).2.2⟩

/-- C10, the refuted part: the probe output `9223372036854775807` has a non-negative integer
part, and the divisor `compress` uses for it is `-2^63`, which is not at least 1. -/
theorem compress_divisor_wraps :
    ¬ (∀ (out : String) (n : Int), atoi (beforeDot out) = .ok n → 0 ≤ n →
        ∃ L, compressLength out = .ok L ∧ 1 ≤ L) ∧
    atoi (beforeDot "9223372036854775807") = .ok 9223372036854775807 ∧
    compressLength "9223372036854775807" = .ok (-9223372036854775808) := by
  refine ⟨?_, by decide, by decide⟩
  intro h
  obtain ⟨L, h1, h2⟩ := h "9223372036854775807" 9223372036854775807 (by decide) (by decide)
  have h3 : compressLength "9223372036854775807" = .ok (-9223372036854775808) := by decide
  rw [h3] at h1
  cases h1
  exact absurd h2 (by decide)

/-- C10, amended: for every divisor `L ≥ 1` the video bitrate `(25,000,000 * 8) / L - 128,000`
is positive exactly when `L ≤ 1562` and negative when `L ≥ 1563`; a non-negative probed
integer part `n` never makes the divisor zero, and the divisor is `n + 1 ≥ 1` unless
`n = 2^63 - 1`, where the increment wraps. -/
theorem compress_bitrate_sign (L : Int) (hL : 1 ≤ L) :
    videoBitrate L = (25000000 * 8) / L - 128000 ∧
    (0 < videoBitrate L ↔ L ≤ 1562) ∧
    (1563 ≤ L → videoBitrate L < 0) ∧
    (∀ (out : String) (n : Int), atoi (beforeDot out) = .ok n → 0 ≤ n →
      ∃ D, compressLength out = .ok D ∧ D ≠ 0 ∧ (n < intMax → D = n + 1 ∧ 1 ≤ D)) := by
  have hv := videoBitrate_eq L hL
  have hpos : (0 : Int) < L := by omega
  have h1 : (128001 : Int) ≤ 200000000 / L ↔ 128001 * L ≤ 200000000 :=
    Int.le_ediv_iff_mul_le hpos
  have h2 : (200000000 : Int) / L < 128000 ↔ 200000000 < 128000 * L :=
    Int.ediv_lt_iff_lt_mul hpos
  refine ⟨by rw [hv]; norm_num, ?_, ?_, ?_⟩
  · rw [hv]
    constructor
    · intro h
      have : (128001 : Int) ≤ 200000000 / L := by omega
      have := h1.mp this
      omega
    · intro h
      have : (128001 : Int) ≤ 200000000 / L := h1.mpr (by omega)
      omega
  · intro h
    rw [hv]
    have : (200000000 : Int) / L < 128000 := h2.mpr (by omega)
    omega
  · intro out n hp hn
    have hr := atoi_range _ _ hp
    refine ⟨wrapInt (n + 1), by unfold compressLength; rw [hp], ?_, ?_⟩
    · unfold wrapInt
      unfold intMax at hr
      omega
    · intro hlt
      rw [wrapInt_of_range _ (by unfold intMin; omega) (by omega)]
      exact ⟨rfl, by omega⟩

/-- Witness for C10 at the last divisor with a positive bitrate. -/
theorem compress_bitrate_sign_witness :
    (1 : Int) ≤ 1562 ∧ videoBitrate 1562 = 40 ∧ (0 < videoBitrate 1562 ↔ (1562 : Int) ≤ 1562) ∧
    (∃ D, compressLength "1561.9" = .ok D ∧ D ≠ 0 ∧
      ((1561 : Int) < intMax → D = 1561 + 1 ∧ 1 ≤ D)) :=
  ⟨by decide, by decide, (compress_bitrate_sign 1562 (by decide)).2.1,
    (compress_bitrate_sign 1562 (by decide)).2.2.2 "1561.9" 1561 (by decide) (by decide)⟩


/-! ## The codec check -/

/-- C4, what the code does: the codec probe prints `h264` and a newline, `codec` returns
that text unmodified, it differs from `"h264"`, and so an h264 file of 10 MB requested
without trim bounds is converted all the same: the encoder runs, the name gains `-convert`,
and the file delivered is `75-convert.mp4`, not the fetched `75.webm`. -/
theorem codec_newline_converts :
    (∀ (env : Env) (st : St) (f : String), st.v.File = some f →
      codecDecide env (.ok "h264\n") st =
        match convert env (st.log ("converting video: " ++ f)) with
        | (.ok _, st1) => (.next, st1)
        | (.err m, st1) => (.stop, st1.say env ("could not convert video: " ++ m))
        | (.crash, st1) => (.crash, st1)) ∧
    (codec (calmEnv (.ok "h264\n") "12.5\n" 10000000)
        { dir := [".", "75.webm"], v := { Name := "75", File := some "75.webm" },
          trace := [] }).1 = .ok "h264\n" ∧
    Event.exec (convertCmd "75.webm" "75") ∈
      (handleEmbed (calmEnv (.ok "h264\n") "12.5\n" 10000000) sampleRequest ["."]).2.trace ∧
    (handleEmbed (calmEnv (.ok "h264\n") "12.5\n" 10000000) sampleRequest ["."]).2.v.Name
      = "75-convert" ∧
    Event.uploaded "75-convert.mp4" ∈
      (handleEmbed (calmEnv (.ok "h264\n") "12.5\n" 10000000) sampleRequest ["."]).2.trace ∧
    Event.uploaded "75.webm" ∉
      (handleEmbed (calmEnv (.ok "h264\n") "12.5\n" 10000000) sampleRequest ["."]).2.trace := by
  refine ⟨?_, by decide, by decide, by decide, by decide, by decide⟩
  intro env st f hf
  have hne : ("h264\n" != "h264") = true := by decide
  simp only [codecDecide, hne, if_true, hf]

/-- C6: when `codec` returns an error, `handleEmbed` logs it and goes on: the video and the
directory are as the probe left them, the only events are the probe and one log line (no
encoder, no message to the user), which is the state an output of exactly `h264` leads to
apart from the log line, and the next thing `body` does is the size check. -/
theorem codec_probe_failure_is_lenient (env : Env) (req : Request) (st st1 : St) (f e : String)
    (htrim : trimStage env req st = (.next, st1)) (hf : st1.v.File = some f)
    (hprobe : (env.exec (codecCmd f) st1.dir).1 = .error e) :
    codecStage env st1 = (.next, ((st1.run env (codecCmd f)).2).log ("could not get codec: " ++ e)) ∧
    (codecStage env st1).2.v = st1.v ∧
    (codecStage env st1).2.dir = (env.exec (codecCmd f) st1.dir).2 ∧
    (codecStage env st1).2.trace =
      st1.trace ++ [.exec (codecCmd f), .log ("could not get codec: " ++ e)] ∧
    codecDecide env (.ok "h264") (st1.run env (codecCmd f)).2 = (.next, (st1.run env (codecCmd f)).2) ∧
    body env req st =
      (match sizeStage env (((st1.run env (codecCmd f)).2).log ("could not get codec: " ++ e)) with
      | (.next, st3) => deliver env st3
      | r => r) := by
  have hc : codec env st1 = (.err e, (st1.run env (codecCmd f)).2) := by
    unfold codec
    simp only [hf]
    split
    · rename_i e1 s1 heq
      have h1 := congrArg Prod.fst heq
      have h2 := congrArg Prod.snd heq
      simp only [run_fst, hprobe] at h1
      cases h1
      simp only at h2
      rw [h2]
    · rename_i o s1 heq
      have h1 := congrArg Prod.fst heq
      simp only [run_fst, hprobe] at h1
      cases h1
  have hs : codecStage env st1 =
      (.next, ((st1.run env (codecCmd f)).2).log ("could not get codec: " ++ e)) := by
    unfold codecStage
    rw [hc]
    rfl
  refine ⟨hs, ?_, ?_, ?_, ?_, ?_⟩
  · rw [hs]; rfl
  · rw [hs]; rfl
  · rw [hs]; simp
  · have heq : ("h264" != "h264") = false := by decide
    simp only [codecDecide, heq, Bool.false_eq_true, if_false]
  · unfold body
    rw [htrim]
    simp only
    rw [hs]

/-- Witness for C6: a request without trim bounds whose codec probe exits with an error. -/
theorem codec_probe_failure_is_lenient_witness :
    (codecStage (calmEnv (.error "exit status 1") "12.5\n" 10000000)
      { dir := [".", "75.webm"], v := { Name := "75", File := some "75.webm" },
        trace := [] }).2.trace =
      [] ++ [.exec (codecCmd "75.webm"), .log ("could not get codec: " ++ "exit status 1")] :=
  (codec_probe_failure_is_lenient (calmEnv (.error "exit status 1") "12.5\n" 10000000)
    sampleRequest
    { dir := [".", "75.webm"], v := { Name := "75", File := some "75.webm" }, trace := [] }
    { dir := [".", "75.webm"], v := { Name := "75", File := some "75.webm" }, trace := [] }
    "75.webm" "exit status 1" (by decide) (by decide) (by decide)).2.2.2.1


/-! ## The size check -/

theorem say_trace (env : Env) (st : St) (m : String) : st.trace <+: (st.say env m).trace := by
  unfold St.say
  split
  · simp only [log_trace, emit_trace, List.append_assoc]; exact List.prefix_append _ _
  · simp only [emit_trace]; exact List.prefix_append _ _

theorem compress_starts (env : Env) (st : St) (f : String) (hf : st.v.File = some f) :
    (st.trace ++ [.exec (durationCmd f)]) <+: (compress env st).2.trace := by
  unfold compress
  simp only [hf]
  rcases hx : st.run env (durationCmd f) with ⟨r, st1⟩
  have h1 : st1.trace = st.trace ++ [.exec (durationCmd f)] := by
    have := congrArg (fun p => p.2.trace) hx
    simpa using this.symm
  cases r with
  | error e => simp only [h1]; exact List.prefix_refl _
  | ok out =>
    simp only
    cases compressLength out with
    | error e => simp only [h1]; exact List.prefix_refl _
    | ok len =>
      simp only
      split
      · simp only [emit_trace, h1]; exact List.prefix_append _ _
      · rcases hy : st1.run env (compressCmd f st1.v.Name len) with ⟨r2, st2⟩
        have h2 : st2.trace = st1.trace ++ [.exec (compressCmd f st1.v.Name len)] := by
          have := congrArg (fun p => p.2.trace) hy
          simpa using this.symm
        have h3 : (st.trace ++ [.exec (durationCmd f)]) <+: st2.trace := by
          rw [h2, h1]; exact List.prefix_append _ _
        cases r2 with
        | error e => exact h3
        | ok o => exact h3.trans (supersede_trace env "-compress" st2)

theorem mem_since_of_prefix (st st2 : St) (tl : List Event) (e : Event)
    (h : (st.trace ++ tl) <+: st2.trace) (he : e ∈ tl) : e ∈ St.since st st2 := by
  obtain ⟨t, ht⟩ := h
  unfold St.since
  rw [← ht, List.append_assoc, List.drop_left]
  exact List.mem_append_left _ he

/-- C5: when the size check is reached and `Stat` succeeds, `compress` is invoked (its probe
is the first thing it runs) exactly when the size is strictly greater than 25,000,000 bytes;
at or below that size the check changes nothing at all. -/
theorem size_check_threshold (env : Env) (st : St) (f : String) (size : Int)
    (hf : st.v.File = some f) (hstat : env.stat f st.dir = .ok size) :
    (Event.exec (durationCmd f) ∈ St.since st (sizeStage env st).2 ↔ 25000000 < size) ∧
    (size ≤ 25000000 → sizeStage env st = (.next, st)) ∧
    (25000000 < size → sizeStage env st =
      match compress env (st.log ("compressing video: " ++ f)) with
      | (.ok _, st1) => (.next, st1)
      | (.err m, st1) => (.stop, st1.say env ("could not compress video: " ++ m))
      | (.crash, st1) => (.crash, st1)) := by
  have hl : sizeLimit = 25000000 := by decide
  have hsmall : size ≤ 25000000 → sizeStage env st = (.next, st) := by
    intro h
    simp only [sizeStage, hf, hstat, hl]
    rw [if_neg (by omega)]
  have hbig : 25000000 < size → sizeStage env st =
      match compress env (st.log ("compressing video: " ++ f)) with
      | (.ok _, st1) => (.next, st1)
      | (.err m, st1) => (.stop, st1.say env ("could not compress video: " ++ m))
      | (.crash, st1) => (.crash, st1) := by
    intro h
    simp only [sizeStage, hf, hstat, hl]
    rw [if_pos (by omega)]
  refine ⟨⟨?_, ?_⟩, hsmall, hbig⟩
  · intro hmem
    by_contra hle
    rw [hsmall (by omega)] at hmem
    simp [St.since] at hmem
  · intro h
    have hp := compress_starts env (st.log ("compressing video: " ++ f)) f (by simpa using hf)
    have hq : (st.trace ++ [.log ("compressing video: " ++ f), .exec (durationCmd f)]) <+:
        (sizeStage env st).2.trace := by
      rw [hbig h]
      have hp2 : (st.trace ++ [.log ("compressing video: " ++ f), .exec (durationCmd f)]) <+:
          (compress env (st.log ("compressing video: " ++ f))).2.trace := by
        simpa using hp
      rcases hc : compress env (st.log ("compressing video: " ++ f)) with ⟨r, s1⟩
      rw [hc] at hp2
      cases r with
      | ok u => exact hp2
      | err m => exact hp2.trans (say_trace env s1 _)
      | crash => exact hp2
    exact mem_since_of_prefix st _ _ _ hq (by simp)

/-- Witness for C5: a file of exactly 25,000,000 bytes and one of 25,000,001 bytes. -/
theorem size_check_threshold_witness :
    (sizeStage (calmEnv (.ok "h264") "12.5\n" 25000000)
      { dir := [".", "75.webm"], v := { Name := "75", File := some "75.webm" }, trace := [] } =
      (.next, { dir := [".", "75.webm"], v := { Name := "75", File := some "75.webm" },
                trace := [] })) ∧
    Event.exec (durationCmd "75.webm") ∈ St.since
      { dir := [".", "75.webm"], v := { Name := "75", File := some "75.webm" }, trace := [] }
      (sizeStage (calmEnv (.ok "h264") "12.5\n" 25000001)
        { dir := [".", "75.webm"], v := { Name := "75", File := some "75.webm" },
          trace := [] }).2 :=
  ⟨(size_check_threshold (calmEnv (.ok "h264") "12.5\n" 25000000)
      { dir := [".", "75.webm"], v := { Name := "75", File := some "75.webm" }, trace := [] }
      "75.webm" 25000000 (by decide) (by decide)).2.1 (by decide),
   (size_check_threshold (calmEnv (.ok "h264") "12.5\n" 25000001)
      { dir := [".", "75.webm"], v := { Name := "75", File := some "75.webm" }, trace := [] }
      "75.webm" 25000001 (by decide) (by decide)).1.mpr (by decide)⟩

/-! ## `find` with a stale handle -/

/-- C8, what the code does: `find` tests `v.File == nil`, and `convert` calls it with the
handle of the file it has just deleted. With the name `75-convert`, the handle of `75.webm`
and a directory without any entry that starts with `75-convert`, `find` returns nil and
leaves the stale handle in place; with a nil handle it returns the not-found error. After an
encoder that exits successfully without writing its output, `convert` therefore returns nil
with a handle to the deleted `75.webm`. -/
theorem find_keeps_stale_handle :
    find (calmEnv (.ok "vp9\n") "12.5\n" 10000000)
      { dir := ["."], v := { Name := "75-convert", File := some "75.webm" }, trace := [] } =
      (.ok (), { dir := ["."], v := { Name := "75-convert", File := some "75.webm" },
                 trace := [] }) ∧
    (find (calmEnv (.ok "vp9\n") "12.5\n" 10000000)
      { dir := ["."], v := { Name := "75-convert", File := none }, trace := [] }).1 =
      .err "could not find video file" ∧
    (convert (lossyEnv (.ok "vp9\n") "12.5\n" 10000000)
      { dir := [".", "75.webm"], v := { Name := "75", File := some "75.webm" },
        trace := [] }).1 = .ok () ∧
    (convert (lossyEnv (.ok "vp9\n") "12.5\n" 10000000)
      { dir := [".", "75.webm"], v := { Name := "75", File := some "75.webm" },
        trace := [] }).2.v = { Name := "75-convert", File := some "75.webm" } ∧
    (convert (lossyEnv (.ok "vp9\n") "12.5\n" 10000000)
      { dir := [".", "75.webm"], v := { Name := "75", File := some "75.webm" },
        trace := [] }).2.dir = ["."] := by
  decide


/-! ## The logical name -/

@[simp] theorem names_append (a b : List Event) : names (a ++ b) = names a ++ names b := by
  simp [names, List.filterMap_append]

@[simp] theorem names_nil : names [] = [] := rfl
@[simp] theorem names_setName (n : String) (l : List Event) :
    names (.setName n :: l) = n :: names l := rfl
@[simp] theorem names_log (m : String) (l : List Event) : names (.log m :: l) = names l := rfl
@[simp] theorem names_exec (a : List String) (l : List Event) :
    names (.exec a :: l) = names l := rfl
@[simp] theorem names_respond (m : String) (l : List Event) :
    names (.respond m :: l) = names l := rfl
@[simp] theorem names_removed (m : String) (l : List Event) :
    names (.removed m :: l) = names l := rfl
@[simp] theorem names_uploaded (m : String) (l : List Event) :
    names (.uploaded m :: l) = names l := rfl
@[simp] theorem names_crash (l : List Event) : names (.crash :: l) = names l := rfl
@[simp] theorem names_react (l : List Event) : names (.react :: l) = names l := rfl
@[simp] theorem names_deferred (l : List Event) : names (.deferred :: l) = names l := rfl

theorem SameName.refl (st : St) : SameName st st := ⟨rfl, rfl⟩

theorem SameName.trans {a b c : St} (h1 : SameName a b) (h2 : SameName b c) : SameName a c :=
  ⟨h2.1.trans h1.1, h2.2.trans h1.2⟩

theorem NameStep.of_same {sfx : String} {a b c : St} (h1 : SameName a b)
    (h2 : NameStep sfx b c) : NameStep sfx a c := by
  rcases h2 with h | ⟨h, h'⟩
  · exact Or.inl (h1.trans h)
  · exact Or.inr ⟨by rw [h, h1.1], by rw [h', h1.1, h1.2]⟩

theorem NameStep.then_same {sfx : String} {a b c : St} (h1 : NameStep sfx a b)
    (h2 : SameName b c) : NameStep sfx a c := by
  rcases h1 with h | ⟨h, h'⟩
  · exact Or.inl (h.trans h2)
  · exact Or.inr ⟨by rw [h2.1, h], by rw [h2.2, h']⟩

theorem sameName_log (st : St) (m : String) : SameName st (st.log m) := ⟨rfl, by simp⟩

theorem sameName_say (env : Env) (st : St) (m : String) : SameName st (st.say env m) := by
  unfold St.say
  split <;> exact ⟨rfl, by simp⟩

theorem sameName_run (env : Env) (st : St) (a : List String) :
    SameName st (st.run env a).2 := ⟨rfl, by simp⟩

theorem sameName_find (env : Env) (st : St) : SameName st (find env st).2 := by
  refine ⟨?_, by rw [find_trace]⟩
  unfold find
  simp only
  split
  · rfl
  · split <;> rfl

theorem sameName_delete (env : Env) (st : St) : SameName st (delete env st).2 := by
  unfold delete
  split
  · exact ⟨rfl, by simp⟩
  · simp only
    split <;> split <;> exact ⟨rfl, by simp⟩

theorem nameStep_supersede (env : Env) (sfx : String) (st : St) :
    NameStep sfx st (supersede env sfx st).2 := by
  have hd := sameName_delete env st
  unfold supersede
  split
  · rename_i u st1 heq
    rw [heq] at hd
    have hd1 : st1.v.Name = st.v.Name := hd.1
    have hd2 : names st1.trace = names st.trace := hd.2
    refine Or.inr ⟨?_, ?_⟩
    · rw [(sameName_find env _).1]; simp [hd1]
    · rw [(sameName_find env _).2]; simp [hd1, hd2]
  · rename_i e st1 heq; rw [heq] at hd; exact Or.inl hd
  · rename_i st1 heq; rw [heq] at hd; exact Or.inl hd

theorem nameStep_after_run (env : Env) (sfx : String) (st : St) (a : List String) :
    NameStep sfx st
      (match st.run env a with
        | (.error e, st1) => ((.err e : Res Unit), st1)
        | (.ok _, st1) => supersede env sfx st1).2 := by
  rcases hx : st.run env a with ⟨r, st1⟩
  have h1 : SameName st st1 := by
    have := sameName_run env st a
    rw [hx] at this
    exact this
  cases r with
  | error e => exact Or.inl h1
  | ok o => exact NameStep.of_same h1 (nameStep_supersede env sfx st1)

theorem nameStep_trim (env : Env) (s e : String) (st : St) :
    NameStep "-trim" st (trim env s e st).2 := by
  unfold trim
  split
  · exact Or.inl ⟨rfl, by simp⟩
  · exact nameStep_after_run env "-trim" st _

theorem nameStep_convert (env : Env) (st : St) : NameStep "-convert" st (convert env st).2 := by
  unfold convert
  split
  · exact Or.inl ⟨rfl, by simp⟩
  · exact nameStep_after_run env "-convert" st _

theorem nameStep_compress (env : Env) (st : St) :
    NameStep "-compress" st (compress env st).2 := by
  unfold compress
  split
  · exact Or.inl ⟨rfl, by simp⟩
  · rename_i f hf
    rcases hx : st.run env (durationCmd f) with ⟨r, st1⟩
    have h1 : SameName st st1 := by
      have := sameName_run env st (durationCmd f)
      rw [hx] at this
      exact this
    cases r with
    | error e => exact Or.inl h1
    | ok out =>
      simp only
      cases compressLength out with
      | error e => exact Or.inl h1
      | ok len =>
        simp only
        split
        · exact Or.inl ⟨h1.1, by simp [h1.2]⟩
        · exact NameStep.of_same h1 (nameStep_after_run env "-compress" st1 _)

theorem nameStep_trimStage (env : Env) (req : Request) (st : St) :
    NameStep "-trim" st (trimStage env req st).2 ∧
    ((req.start = none ∨ req.stop = none) → SameName st (trimStage env req st).2) := by
  unfold trimStage
  split
  · rename_i s e hs he
    refine ⟨?_, fun h => by rcases h with h | h <;> simp_all⟩
    split
    · exact Or.inl ⟨rfl, by simp⟩
    · rename_i f hf
      have h := NameStep.of_same (sameName_log st ("trimming video: " ++ f))
        (nameStep_trim env s e (st.log ("trimming video: " ++ f)))
      rcases hx : trim env s e (st.log ("trimming video: " ++ f)) with ⟨r, st1⟩
      rw [hx] at h
      cases r with
      | ok u => exact h
      | err m => exact h.then_same (sameName_say env st1 _)
      | crash => exact h
  · exact ⟨Or.inl (SameName.refl st), fun _ => SameName.refl st⟩

theorem nameStep_codecDecide (env : Env) (r : Res String) (st : St) :
    NameStep "-convert" st (codecDecide env r st).2 := by
  unfold codecDecide
  split
  · exact Or.inl (SameName.refl st)
  · exact Or.inl (sameName_log st _)
  · split
    · split
      · exact Or.inl ⟨rfl, by simp⟩
      · rename_i f hf
        have h := NameStep.of_same (sameName_log st ("converting video: " ++ f))
          (nameStep_convert env (st.log ("converting video: " ++ f)))
        rcases hx : convert env (st.log ("converting video: " ++ f)) with ⟨r, st1⟩
        rw [hx] at h
        cases r with
        | ok u => exact h
        | err m => exact h.then_same (sameName_say env st1 _)
        | crash => exact h
    · exact Or.inl (SameName.refl st)

theorem sameName_codec (env : Env) (st : St) : SameName st (codec env st).2 := by
  unfold codec
  split
  · exact ⟨rfl, by simp⟩
  · rename_i f hf
    have := sameName_run env st (codecCmd f)
    rcases hx : st.run env (codecCmd f) with ⟨r, st1⟩
    rw [hx] at this
    cases r <;> exact this

theorem nameStep_codecStage (env : Env) (st : St) :
    NameStep "-convert" st (codecStage env st).2 :=
  NameStep.of_same (sameName_codec env st) (nameStep_codecDecide env _ _)

theorem nameStep_sizeStage (env : Env) (st : St) :
    NameStep "-compress" st (sizeStage env st).2 := by
  unfold sizeStage
  split
  · exact Or.inl (sameName_log st _)
  · rename_i f hf
    split
    · exact Or.inl (sameName_log st _)
    · split
      · have h := NameStep.of_same (sameName_log st ("compressing video: " ++ f))
          (nameStep_compress env (st.log ("compressing video: " ++ f)))
        rcases hx : compress env (st.log ("compressing video: " ++ f)) with ⟨r, st1⟩
        rw [hx] at h
        cases r with
        | ok u => exact h
        | err m => exact h.then_same (sameName_say env st1 _)
        | crash => exact h
      · exact Or.inl (SameName.refl st)

theorem sameName_deliver (env : Env) (st : St) : SameName st (deliver env st).2 := by
  unfold deliver
  split
  · exact ⟨rfl, by simp⟩
  · split
    · exact (sameName_log st _).trans (sameName_say env _ _)
    · split <;> exact ⟨rfl, by simp⟩

theorem sameName_cleanup (env : Env) (r : Flow × St) : SameName r.2 (cleanup env r).2 := by
  have h := sameName_delete env r.2
  unfold cleanup
  rcases hx : delete env r.2 with ⟨x, st1⟩
  rw [hx] at h
  cases x with
  | ok u => exact h
  | err e => exact h.trans (sameName_log st1 _)
  | crash => exact h

theorem sameName_download (env : Env) (u : URL) (st : St) :
    SameName st (download env u st).2 := by
  unfold download
  split
  · exact SameName.refl st
  · rename_i ns hns
    simp only
    have h0 : SameName st
        (if cookieFileName (trimPrefix u.hostname "www.") ns = "" then st
          else st.log ("using cookie file: " ++ cookieFileName (trimPrefix u.hostname "www.") ns)) := by
      split
      · exact SameName.refl st
      · exact sameName_log st _
    generalize (if cookieFileName (trimPrefix u.hostname "www.") ns = "" then st
          else st.log ("using cookie file: " ++ cookieFileName (trimPrefix u.hostname "www.") ns))
      = st0 at h0
    have h1 := sameName_run env st0
      (downloadCmd st.v.Name u (cookieFileName (trimPrefix u.hostname "www.") ns))
    rcases hx : st0.run env
      (downloadCmd st.v.Name u (cookieFileName (trimPrefix u.hostname "www.") ns)) with ⟨r, st1⟩
    rw [hx] at h1
    cases r with
    | error e => exact h0.trans h1
    | ok o => exact (h0.trans h1).trans (sameName_find env st1)

theorem nameChain_of_steps (req : Request) (st st1 st2 st3 : St)
    (h1 : NameStep "-trim" st st1)
    (h1' : (req.start = none ∨ req.stop = none) → SameName st st1)
    (h2 : NameStep "-convert" st1 st2) (h3 : NameStep "-compress" st2 st3) :
    NameChain req st st3 := by
  have key : ∃ t : Bool, st1.v.Name = st.v.Name ++ stageSuffix t "-trim" ∧
      names st1.trace = names st.trace ++ (if t then [st.v.Name ++ "-trim"] else []) ∧
      (t = true → req.start ≠ none ∧ req.stop ≠ none) := by
    by_cases hb : req.start = none ∨ req.stop = none
    · exact ⟨false, by simp [stageSuffix, (h1' hb).1], by simp [(h1' hb).2], by simp⟩
    · rcases h1 with h | ⟨h, h'⟩
      · exact ⟨false, by simp [stageSuffix, h.1], by simp [h.2], by simp⟩
      · exact ⟨true, by simp [stageSuffix, h], by simp [h'], fun _ => by
          push_neg at hb; exact hb⟩
  obtain ⟨t, kt1, kt2, kt3⟩ := key
  have key2 : ∃ c : Bool, st2.v.Name = st1.v.Name ++ stageSuffix c "-convert" ∧
      names st2.trace = names st1.trace ++ (if c then [st1.v.Name ++ "-convert"] else []) := by
    rcases h2 with h | ⟨h, h'⟩
    · exact ⟨false, by simp [stageSuffix, h.1], by simp [h.2]⟩
    · exact ⟨true, by simp [stageSuffix, h], by simp [h']⟩
  obtain ⟨c, kc1, kc2⟩ := key2
  have key3 : ∃ p : Bool, st3.v.Name = st2.v.Name ++ stageSuffix p "-compress" ∧
      names st3.trace = names st2.trace ++ (if p then [st2.v.Name ++ "-compress"] else []) := by
    rcases h3 with h | ⟨h, h'⟩
    · exact ⟨false, by simp [stageSuffix, h.1], by simp [h.2]⟩
    · exact ⟨true, by simp [stageSuffix, h], by simp [h']⟩
  obtain ⟨p, kp1, kp2⟩ := key3
  refine ⟨t, c, p, ?_, ?_, kt3⟩
  · rw [kp1, kc1, kt1]; rfl
  · rw [kp2, kc2, kt2, kc1, kt1]
    cases t <;> cases c <;> cases p <;> simp [stageName, stageSuffix]

theorem nameChain_body (env : Env) (req : Request) (st : St) :
    NameChain req st (body env req st).2 := by
  obtain ⟨h1, h1'⟩ := nameStep_trimStage env req st
  unfold body
  rcases hx : trimStage env req st with ⟨fl, st1⟩
  rw [hx] at h1 h1'
  have hstop : NameChain req st st1 :=
    nameChain_of_steps req st st1 st1 st1 h1 h1' (Or.inl (SameName.refl _))
      (Or.inl (SameName.refl _))
  cases fl with
  | stop => exact hstop
  | crash => exact hstop
  | next =>
    simp only
    have h2 := nameStep_codecStage env st1
    rcases hy : codecStage env st1 with ⟨fl2, st2⟩
    rw [hy] at h2
    have hstop2 : NameChain req st st2 :=
      nameChain_of_steps req st st1 st2 st2 h1 h1' h2 (Or.inl (SameName.refl _))
    cases fl2 with
    | stop => exact hstop2
    | crash => exact hstop2
    | next =>
      simp only
      have h3 := nameStep_sizeStage env st2
      rcases hz : sizeStage env st2 with ⟨fl3, st3⟩
      rw [hz] at h3
      have hstop3 : NameChain req st st3 := nameChain_of_steps req st st1 st2 st3 h1 h1' h2 h3
      cases fl3 with
      | stop => exact hstop3
      | crash => exact hstop3
      | next =>
        simp only
        exact nameChain_of_steps req st st1 st2 _ h1 h1' h2
          (h3.then_same (sameName_deliver env st3))

theorem handleEmbed_names (env : Env) (req : Request) (dir : Dir) :
    ∃ t c p : Bool,
      (handleEmbed env req dir).2.v.Name = stageName (hexEncode req.url) t c p ∧
      (t = true → req.start ≠ none ∧ req.stop ≠ none) ∧
      (names (handleEmbed env req dir).2.trace = [] ∨
        names (handleEmbed env req dir).2.trace = hexEncode req.url ::
          ((if t then [stageName (hexEncode req.url) true false false] else []) ++
           (if c then [stageName (hexEncode req.url) t true false] else []) ++
           (if p then [stageName (hexEncode req.url) t c true] else []))) := by
  have hst1 : ∀ st1 : St, st1 = (match env.ack with
      | some e => (initial req dir).log ("could not respond to interaction: " ++ e)
      | none => (initial req dir).emit .deferred) →
      st1.v.Name = hexEncode req.url ∧ names st1.trace = [] := by
    intro st1 h
    subst h
    split <;> exact ⟨rfl, by simp [initial]⟩
  unfold handleEmbed
  simp only
  generalize (match env.ack with
      | some e => (initial req dir).log ("could not respond to interaction: " ++ e)
      | none => (initial req dir).emit .deferred) = st1 at hst1
  obtain ⟨hn, ht⟩ := hst1 st1 rfl
  have hnone : ∀ st : St, st.v.Name = hexEncode req.url → names st.trace = [] ∨
      names st.trace = [hexEncode req.url] →
      ∃ t c p : Bool, st.v.Name = stageName (hexEncode req.url) t c p ∧
      (t = true → req.start ≠ none ∧ req.stop ≠ none) ∧
      (names st.trace = [] ∨ names st.trace = hexEncode req.url ::
          ((if t then [stageName (hexEncode req.url) true false false] else []) ++
           (if c then [stageName (hexEncode req.url) t true false] else []) ++
           (if p then [stageName (hexEncode req.url) t c true] else []))) := by
    intro st h1 h2
    refine ⟨false, false, false, by simp [stageName, stageSuffix, h1], by simp, ?_⟩
    rcases h2 with h2 | h2
    · exact Or.inl h2
    · exact Or.inr (by simp [h2])
  cases hp : req.parsed with
  | error e =>
    simp only
    exact hnone _ ((sameName_say env st1 _).1.trans hn)
      (Or.inl ((sameName_say env st1 _).2.trans ht))
  | ok u =>
    simp only
    have hs2 : ((st1.emit (.setName (hexEncode req.url))).log ("downloading video: " ++ u.text)).v.Name
        = hexEncode req.url ∧
        names ((st1.emit (.setName (hexEncode req.url))).log ("downloading video: " ++ u.text)).trace
        = [hexEncode req.url] := ⟨hn, by simp [ht]⟩
    generalize ((st1.emit (.setName (hexEncode req.url))).log ("downloading video: " ++ u.text))
      = s2 at hs2
    have hd := sameName_download env u s2
    rcases hx : download env u s2 with ⟨r, st2⟩
    rw [hx] at hd
    have hd1 : st2.v.Name = hexEncode req.url := hd.1.trans hs2.1
    have hd2 : names st2.trace = [hexEncode req.url] := hd.2.trans hs2.2
    cases r with
    | err m =>
      exact hnone _ ((sameName_say env st2 _).1.trans hd1)
        (Or.inr ((sameName_say env st2 _).2.trans hd2))
    | crash => exact hnone _ hd1 (Or.inr hd2)
    | ok o =>
      simp only
      obtain ⟨t, c, p, k1, k2, k3⟩ := nameChain_body env req st2
      have hc := sameName_cleanup env (body env req st2)
      refine ⟨t, c, p, ?_, k3, Or.inr ?_⟩
      · rw [hc.1, k1, hd1]
      · rw [hc.2, k2, hd2, hd1]; rfl

/-- C7: in every run of `handleEmbed`, whatever the request and whatever the tools and the
file system do, the logical name at the end and every value ever assigned to it is the hex
encoding of the URL followed by a selection of `-trim`, `-convert`, `-compress` in that
order, each at most once (`-trim` only when both bounds were given, and each assignment
extends the previous name by one suffix); the example run without trim that converts and
then compresses ends with the name `…-convert-compress` and delivers
`…-convert-compress.mp4`. -/
theorem logical_name_suffix_order (env : Env) (req : Request) (dir : Dir) :
    (∃ t c p : Bool,
      (handleEmbed env req dir).2.v.Name = stageName (hexEncode req.url) t c p ∧
      (t = true → req.start ≠ none ∧ req.stop ≠ none) ∧
      (names (handleEmbed env req dir).2.trace = [] ∨
        names (handleEmbed env req dir).2.trace = hexEncode req.url ::
          ((if t then [stageName (hexEncode req.url) true false false] else []) ++
           (if c then [stageName (hexEncode req.url) t true false] else []) ++
           (if p then [stageName (hexEncode req.url) t c true] else [])))) ∧
    (∀ n ∈ names (handleEmbed env req dir).2.trace,
      ∃ t c p : Bool, n = stageName (hexEncode req.url) t c p) ∧
    (handleEmbed (calmEnv (.ok "vp9\n") "12.5\n" 30000000) sampleRequest ["."]).2.v.Name =
      hexEncode sampleRequest.url ++ "-convert-compress" ∧
    names (handleEmbed (calmEnv (.ok "vp9\n") "12.5\n" 30000000) sampleRequest ["."]).2.trace =
      ["75", "75-convert", "75-convert-compress"] ∧
    Event.uploaded (hexEncode sampleRequest.url ++ "-convert-compress.mp4") ∈
      (handleEmbed (calmEnv (.ok "vp9\n") "12.5\n" 30000000) sampleRequest ["."]).2.trace := by
  refine ⟨handleEmbed_names env req dir, ?_, by decide, by decide, by decide⟩
  obtain ⟨t, c, p, _, _, h⟩ := handleEmbed_names env req dir
  intro n hn
  rcases h with h | h
  · rw [h] at hn; cases hn
  · rw [h] at hn
    simp only [List.mem_cons, List.mem_append] at hn
    rcases hn with hn | (hn | hn) | hn
    · exact ⟨false, false, false, by simp [hn, stageName, stageSuffix]⟩
    · cases t
      · simp at hn
      · simp at hn; exact ⟨true, false, false, hn⟩
    · cases c
      · simp at hn
      · simp at hn; exact ⟨t, true, false, hn⟩
    · cases p
      · simp at hn
      · simp at hn; exact ⟨t, c, true, hn⟩


/-! ## Cleanup in an orderly world -/

theorem hasPrefix_iff (s p : String) : hasPrefix s p = true ↔ p.data <+: s.data := by
  unfold hasPrefix
  exact List.isPrefixOf_iff_prefix

theorem hasPrefix_append (a b : String) : hasPrefix (a ++ b) a = true := by
  rw [hasPrefix_iff]; simp

theorem hasPrefix_trans (a b c : String) (h1 : hasPrefix b a = true)
    (h2 : hasPrefix c b = true) : hasPrefix c a = true := by
  rw [hasPrefix_iff] at *
  exact h1.trans h2

theorem hasPrefix_false_mono (r a b : String) (h1 : hasPrefix b a = true)
    (h2 : hasPrefix r a = false) : hasPrefix r b = false := by
  cases h : hasPrefix r b with
  | false => rfl
  | true => rw [hasPrefix_trans a b r h1 h] at h2; cases h2

theorem not_hasPrefix_sibling (n ext sfx : String) (rest : List Char)
    (hs : sfx.data = '-' :: rest) : hasPrefix (n ++ "." ++ ext) (n ++ sfx) = false := by
  cases h : hasPrefix (n ++ "." ++ ext) (n ++ sfx) with
  | false => rfl
  | true =>
    exfalso
    rw [hasPrefix_iff] at h
    simp only [String.data_append, List.append_assoc] at h
    rw [List.prefix_append_right_inj, hs] at h
    obtain ⟨t, ht⟩ := h
    have hdot : ['.'] ++ ext.data = '.' :: ext.data := rfl
    rw [hdot] at ht
    injection ht with h1 h2
    exact absurd h1 (by decide)

@[simp] theorem removals_append (a b : List Event) :
    removals (a ++ b) = removals a ++ removals b := by
  simp [removals, List.filterMap_append]

@[simp] theorem removals_nil : removals [] = [] := rfl
@[simp] theorem removals_removed (n : String) (l : List Event) :
    removals (.removed n :: l) = n :: removals l := rfl
@[simp] theorem removals_setName (m : String) (l : List Event) :
    removals (.setName m :: l) = removals l := rfl
@[simp] theorem removals_log (m : String) (l : List Event) :
    removals (.log m :: l) = removals l := rfl
@[simp] theorem removals_exec (a : List String) (l : List Event) :
    removals (.exec a :: l) = removals l := rfl
@[simp] theorem removals_respond (m : String) (l : List Event) :
    removals (.respond m :: l) = removals l := rfl
@[simp] theorem removals_uploaded (m : String) (l : List Event) :
    removals (.uploaded m :: l) = removals l := rfl
@[simp] theorem removals_crash (l : List Event) : removals (.crash :: l) = removals l := rfl
@[simp] theorem removals_react (l : List Event) : removals (.react :: l) = removals l := rfl
@[simp] theorem removals_deferred (l : List Event) :
    removals (.deferred :: l) = removals l := rfl

theorem removals_say (env : Env) (st : St) (m : String) :
    removals (st.say env m).trace = removals st.trace := by
  unfold St.say
  split <;> simp

theorem Tidy.congr {base : String} {st st2 : St} (h : Tidy base st) (hv : st2.v = st.v)
    (hd : ∀ x, x ∈ st2.dir ↔ x ∈ st.dir) (hr : removals st2.trace = removals st.trace) :
    Tidy base st2 := by
  obtain ⟨ext, h1, h2, h3, h4, h5⟩ := h
  refine ⟨ext, ?_, ?_, ?_, ?_, ?_⟩
  · rw [hv]; exact h1
  · rw [hv]; exact (hd _).mpr h2
  · intro x hx hp
    rw [hv]
    exact h3 x ((hd x).mp hx) hp
  · rw [hv]; exact h4
  · rw [hv, hr]; exact h5

theorem findWalk_orderly (env : Env) (ho : Orderly env) (dir : Dir) (name target : String)
    (l : List String) (hsub : ∀ x ∈ l, x ∈ dir)
    (honly : ∀ x ∈ l, hasPrefix x name = true → x = target) (file : Option String) :
    findWalk env dir name l file =
      (none, if l.any (fun x => hasPrefix x name) then some target else file) := by
  induction l generalizing file with
  | nil => rfl
  | cons a rest ih =>
    have hsub2 : ∀ x ∈ rest, x ∈ dir := fun x hx => hsub x (List.mem_cons_of_mem _ hx)
    have honly2 : ∀ x ∈ rest, hasPrefix x name = true → x = target :=
      fun x hx => honly x (List.mem_cons_of_mem _ hx)
    simp only [findWalk, ho.lstat_ok]
    cases hp : hasPrefix a name with
    | true =>
      have ha : a = target := honly a (List.mem_cons_self _ _) hp
      simp only [if_true, ho.open_ok a dir (hsub a (List.mem_cons_self _ _))]
      rw [ih hsub2 honly2]
      subst ha
      simp [hp]
    | false =>
      simp only [Bool.false_eq_true, if_false]
      rw [ih hsub2 honly2]
      simp [hp]

theorem find_orderly (env : Env) (ho : Orderly env) (st : St) (target : String)
    (hin : target ∈ st.dir) (hpre : hasPrefix target st.v.Name = true)
    (honly : ∀ x ∈ st.dir, hasPrefix x st.v.Name = true → x = target) :
    find env st = (.ok (), { st with v := { st.v with File := some target } }) := by
  have hany : st.dir.any (fun x => hasPrefix x st.v.Name) = true :=
    List.any_eq_true.mpr ⟨target, hin, hpre⟩
  unfold find
  simp only [findWalk_orderly env ho st.dir st.v.Name target st.dir (fun _ h => h) honly, hany,
    if_true]
  rfl

theorem delete_orderly (env : Env) (ho : Orderly env) (st : St) (f : String)
    (hf : st.v.File = some f) (hin : f ∈ st.dir) :
    (delete env st).1 = .ok () ∧ (delete env st).2.v = st.v ∧
    (∀ x, x ∈ (delete env st).2.dir ↔ (x ∈ st.dir ∧ x ≠ f)) ∧
    removals (delete env st).2.trace = removals st.trace ++ [f] := by
  unfold delete
  simp only [hf]
  cases hc : env.osClose f with
  | none =>
    simp only [(ho.remove_ok f st.dir hin).1]
    exact ⟨trivial, rfl, (ho.remove_ok f st.dir hin).2, by simp⟩
  | some e =>
    simp only [log_dir, (ho.remove_ok f st.dir hin).1]
    exact ⟨trivial, rfl, (ho.remove_ok f st.dir hin).2, by simp⟩

theorem mp4_split (a : String) : a ++ ".mp4" = a ++ "." ++ "mp4" := by
  rw [String.append_assoc]; rfl

theorem supersede_orderly (env : Env) (ho : Orderly env) (base sfx ext : String)
    (rest : List Char) (st : St) (hs : sfx.data = '-' :: rest)
    (hf : st.v.File = some (st.v.Name ++ "." ++ ext))
    (hfin : (st.v.Name ++ "." ++ ext) ∈ st.dir)
    (hout : (st.v.Name ++ sfx ++ ".mp4") ∈ st.dir)
    (honly : ∀ x ∈ st.dir, hasPrefix x base = true →
      x = st.v.Name ++ "." ++ ext ∨ x = st.v.Name ++ sfx ++ ".mp4")
    (hbase : hasPrefix st.v.Name base = true)
    (hrem : ∀ r ∈ removals st.trace, hasPrefix r st.v.Name = false) :
    (supersede env sfx st).1 = .ok () ∧ Tidy base (supersede env sfx st).2 := by
  obtain ⟨d1, d2, d3, d4⟩ := delete_orderly env ho st _ hf hfin
  have hnew : hasPrefix (st.v.Name ++ sfx) st.v.Name = true := hasPrefix_append _ _
  have hnewbase : hasPrefix (st.v.Name ++ sfx) base = true := hasPrefix_trans _ _ _ hbase hnew
  have hold : hasPrefix (st.v.Name ++ "." ++ ext) (st.v.Name ++ sfx) = false :=
    not_hasPrefix_sibling _ _ _ rest hs
  have houtp : hasPrefix (st.v.Name ++ sfx ++ ".mp4") (st.v.Name ++ sfx) = true :=
    hasPrefix_append _ _
  have hne : st.v.Name ++ sfx ++ ".mp4" ≠ st.v.Name ++ "." ++ ext := by
    intro h
    rw [h, hold] at houtp
    cases houtp
  unfold supersede
  rcases hx : delete env st with ⟨r, st1⟩
  rw [hx] at d1 d2 d3 d4
  simp only at d1 d2 d3 d4
  subst d1
  simp only
  have hfind := find_orderly env ho
    ({ st1 with v := { st1.v with Name := st1.v.Name ++ sfx } }.emit
      (.setName (st1.v.Name ++ sfx))) (st.v.Name ++ sfx ++ ".mp4")
    (by simpa using (d3 _).mpr ⟨hout, hne⟩)
    (by simpa [d2] using houtp)
    (by
      intro x hx hp
      have hx2 : x ∈ st.dir ∧ x ≠ st.v.Name ++ "." ++ ext := (d3 x).mp (by simpa using hx)
      have hp2 : hasPrefix x (st.v.Name ++ sfx) = true := by simpa [d2] using hp
      rcases honly x hx2.1 (hasPrefix_trans _ _ _ hnewbase hp2) with h | h
      · exact absurd h hx2.2
      · exact h)
  rw [hfind]
  refine ⟨rfl, "mp4", ?_, ?_, ?_, ?_, ?_⟩
  · simp only [emit_v, d2]
    rw [← mp4_split]
  · simp only [emit_v, emit_dir, d2]
    rw [← mp4_split]
    exact (d3 _).mpr ⟨hout, hne⟩
  · intro x hx hp
    simp only [emit_v, emit_dir, d2] at hx ⊢
    rw [← mp4_split]
    have hx2 := (d3 x).mp hx
    rcases honly x hx2.1 hp with h | h
    · exact absurd h hx2.2
    · exact h
  · simpa [d2] using hnewbase
  · intro r hr
    simp only [emit_v, emit_trace, removals_append, d2, d4] at hr ⊢
    simp only [removals_setName, removals_nil, List.append_nil, List.mem_append,
      List.mem_singleton] at hr
    rcases hr with hr | hr
    · exact hasPrefix_false_mono r _ _ hnew (hrem r hr)
    · rw [hr]; exact hold

theorem tidy_log {base : String} {st : St} (h : Tidy base st) (m : String) :
    Tidy base (st.log m) :=
  h.congr rfl (fun _ => Iff.rfl) (by simp)

theorem tidy_emit_crash {base : String} {st : St} (h : Tidy base st) :
    Tidy base (st.emit .crash) :=
  h.congr rfl (fun _ => Iff.rfl) (by simp)

theorem tidy_say {base : String} {st : St} (h : Tidy base st) (env : Env) (m : String) :
    Tidy base (st.say env m) :=
  h.congr (say_v st env m) (fun _ => by rw [say_dir]) (removals_say env st m)

theorem tidy_after_encode (env : Env) (ho : Orderly env) (base sfx : String)
    (rest : List Char) (st : St) (cmd : List String) (hs : sfx.data = '-' :: rest)
    (hhead : cmd.head? = some "ffmpeg") (hlast : cmd.getLastD "" = st.v.Name ++ sfx ++ ".mp4")
    (ht : Tidy base st) :
    Tidy base
      (match st.run env cmd with
        | (.error e, st1) => ((.err e : Res Unit), st1)
        | (.ok _, st1) => supersede env sfx st1).2 := by
  have he := ho.encode cmd st.dir hhead
  obtain ⟨ext, h1, h2, h3, h4, h5⟩ := ht
  rcases hx : env.exec cmd st.dir with ⟨r, d⟩
  rw [hx] at he
  have hrun : st.run env cmd = (r, { (st.emit (.exec cmd)) with dir := d }) := by
    simp [St.run, hx]
  rw [hrun]
  cases r with
  | error e =>
    simp only at he ⊢
    exact Tidy.congr ⟨ext, h1, h2, h3, h4, h5⟩ rfl he (by simp)
  | ok o =>
    simp only at he ⊢
    rw [hlast] at he
    refine (supersede_orderly env ho base sfx ext rest
      { (st.emit (.exec cmd)) with dir := d } hs h1 ?_ ?_ ?_ h4 ?_).2
    · exact (he _).mpr (Or.inl h2)
    · exact (he _).mpr (Or.inr rfl)
    · intro x hx hp
      rcases (he x).mp hx with h | h
      · exact Or.inl (h3 x h hp)
      · exact Or.inr h
    · intro r hr
      exact h5 r (by simpa using hr)

theorem tidy_trim (env : Env) (ho : Orderly env) (base s e : String) (st : St)
    (ht : Tidy base st) : Tidy base (trim env s e st).2 := by
  unfold trim
  split
  · exact tidy_emit_crash ht
  · rename_i f hf
    exact tidy_after_encode env ho base "-trim" _ st _ rfl rfl
      (by simp only [trimCmd, List.getLastD]; rw [String.append_assoc]; rfl) ht

theorem tidy_convert (env : Env) (ho : Orderly env) (base : String) (st : St)
    (ht : Tidy base st) : Tidy base (convert env st).2 := by
  unfold convert
  split
  · exact tidy_emit_crash ht
  · rename_i f hf
    exact tidy_after_encode env ho base "-convert" _ st _ rfl rfl
      (by simp only [convertCmd, List.getLastD]; rw [String.append_assoc]; rfl) ht

theorem tidy_run_probe (env : Env) (base : String) (st : St) (cmd : List String)
    (hp : ∀ x, x ∈ (env.exec cmd st.dir).2 ↔ x ∈ st.dir) (ht : Tidy base st) :
    Tidy base (st.run env cmd).2 :=
  ht.congr rfl hp (by simp)

theorem tidy_compress (env : Env) (ho : Orderly env) (base : String) (st : St)
    (ht : Tidy base st) : Tidy base (compress env st).2 := by
  unfold compress
  split
  · exact tidy_emit_crash ht
  · rename_i f hf
    have h1 := tidy_run_probe env base st (durationCmd f) (ho.duration_probe f st.dir) ht
    rcases hx : st.run env (durationCmd f) with ⟨r, st1⟩
    rw [hx] at h1
    cases r with
    | error e => exact h1
    | ok out =>
      simp only
      cases compressLength out with
      | error e => exact h1
      | ok len =>
        simp only
        split
        · exact tidy_emit_crash h1
        · exact tidy_after_encode env ho base "-compress" _ st1 _ rfl rfl
            (by simp only [compressCmd, List.getLastD]; rw [String.append_assoc]; rfl) h1

theorem tidy_trimStage (env : Env) (ho : Orderly env) (base : String) (req : Request)
    (st : St) (ht : Tidy base st) : Tidy base (trimStage env req st).2 := by
  unfold trimStage
  split
  · rename_i s e hs he
    split
    · exact tidy_emit_crash ht
    · rename_i f hf
      have h := tidy_trim env ho base s e _ (tidy_log ht ("trimming video: " ++ f))
      rcases hx : trim env s e (st.log ("trimming video: " ++ f)) with ⟨r, st1⟩
      rw [hx] at h
      cases r with
      | ok u => exact h
      | err m => exact tidy_say h env _
      | crash => exact h
  · exact ht

theorem tidy_codecStage (env : Env) (ho : Orderly env) (base : String) (st : St)
    (ht : Tidy base st) : Tidy base (codecStage env st).2 := by
  have hc : Tidy base (codec env st).2 := by
    unfold codec
    split
    · exact tidy_emit_crash ht
    · rename_i f hf
      have h1 := tidy_run_probe env base st (codecCmd f) (ho.codec_probe f st.dir) ht
      rcases hx : st.run env (codecCmd f) with ⟨r, st1⟩
      rw [hx] at h1
      cases r <;> exact h1
  unfold codecStage
  generalize (codec env st).2 = st1 at hc
  generalize (codec env st).1 = r
  unfold codecDecide
  split
  · exact hc
  · exact tidy_log hc _
  · split
    · split
      · exact tidy_emit_crash hc
      · rename_i f hf
        have h := tidy_convert env ho base _ (tidy_log hc ("converting video: " ++ f))
        rcases hx : convert env (st1.log ("converting video: " ++ f)) with ⟨r2, st2⟩
        rw [hx] at h
        cases r2 with
        | ok u => exact h
        | err m => exact tidy_say h env _
        | crash => exact h
    · exact hc

theorem tidy_sizeStage (env : Env) (ho : Orderly env) (base : String) (st : St)
    (ht : Tidy base st) : Tidy base (sizeStage env st).2 := by
  unfold sizeStage
  split
  · exact tidy_log ht _
  · rename_i f hf
    split
    · exact tidy_log ht _
    · split
      · have h := tidy_compress env ho base _ (tidy_log ht ("compressing video: " ++ f))
        rcases hx : compress env (st.log ("compressing video: " ++ f)) with ⟨r, st1⟩
        rw [hx] at h
        cases r with
        | ok u => exact h
        | err m => exact tidy_say h env _
        | crash => exact h
      · exact ht

theorem tidy_deliver (env : Env) (base : String) (st : St) (ht : Tidy base st) :
    Tidy base (deliver env st).2 := by
  unfold deliver
  split
  · exact tidy_emit_crash ht
  · split
    · exact tidy_say (tidy_log ht _) env _
    · split <;> exact ht.congr rfl (fun _ => Iff.rfl) (by simp)

theorem tidy_body (env : Env) (ho : Orderly env) (base : String) (req : Request) (st : St)
    (ht : Tidy base st) : Tidy base (body env req st).2 := by
  have h1 := tidy_trimStage env ho base req st ht
  unfold body
  rcases hx : trimStage env req st with ⟨fl, st1⟩
  rw [hx] at h1
  cases fl with
  | stop => exact h1
  | crash => exact h1
  | next =>
    simp only
    have h2 := tidy_codecStage env ho base st1 h1
    rcases hy : codecStage env st1 with ⟨fl2, st2⟩
    rw [hy] at h2
    cases fl2 with
    | stop => exact h2
    | crash => exact h2
    | next =>
      simp only
      have h3 := tidy_sizeStage env ho base st2 h2
      rcases hz : sizeStage env st2 with ⟨fl3, st3⟩
      rw [hz] at h3
      cases fl3 with
      | stop => exact h3
      | crash => exact h3
      | next => exact tidy_deliver env base st3 h3

theorem cleanup_of_tidy (env : Env) (ho : Orderly env) (base : String) (r : Flow × St)
    (ht : Tidy base r.2) :
    (∀ x ∈ (cleanup env r).2.dir, hasPrefix x base = false) ∧
    (∃ f, (cleanup env r).2.v.File = some f ∧
      (removals (cleanup env r).2.trace).count f = 1) := by
  obtain ⟨ext, h1, h2, h3, h4, h5⟩ := ht
  obtain ⟨d1, d2, d3, d4⟩ := delete_orderly env ho r.2 _ h1 h2
  unfold cleanup
  rcases hx : delete env r.2 with ⟨x, st1⟩
  rw [hx] at d1 d2 d3 d4
  simp only at d1 d2 d3 d4
  subst d1
  simp only
  refine ⟨?_, r.2.v.Name ++ "." ++ ext, by rw [d2]; exact h1, ?_⟩
  · intro x hx
    have hx2 := (d3 x).mp hx
    cases hp : hasPrefix x base with
    | false => rfl
    | true => exact absurd (h3 x hx2.1 hp) hx2.2
  · rw [d4, List.count_append]
    have h0 : List.count (r.2.v.Name ++ "." ++ ext) (removals r.2.trace) = 0 := by
      rw [List.count_eq_zero]
      intro hmem
      have := h5 _ hmem
      rw [String.append_assoc, hasPrefix_append] at this
      cases this
    rw [h0]
    simp


theorem download_orderly (env : Env) (ho : Orderly env) (u : URL) (st : St)
    (hnone : st.v.File = none) (hclean : ∀ x ∈ st.dir, hasPrefix x st.v.Name = false)
    (hrem : removals st.trace = []) :
    match download env u st with
    | (.ok _, st2) => Tidy st.v.Name st2 ∧ removals st2.trace = removals st.trace
    | (.err _, st2) => (∀ x ∈ st2.dir, hasPrefix x st.v.Name = false) ∧ st2.v.File = none
    | (.crash, _) => False := by
  unfold download
  cases hcw : env.cookieWalk with
  | error e => exact ⟨hclean, hnone⟩
  | ok ns =>
    simp only
    have h0 : ∀ st0 : St, st0 = (if cookieFileName (trimPrefix u.hostname "www.") ns = "" then st
          else st.log ("using cookie file: " ++ cookieFileName (trimPrefix u.hostname "www.") ns)) →
        st0.v = st.v ∧ st0.dir = st.dir ∧ removals st0.trace = removals st.trace := by
      intro st0 h
      subst h
      split
      · exact ⟨rfl, rfl, rfl⟩
      · exact ⟨rfl, rfl, by simp⟩
    generalize (if cookieFileName (trimPrefix u.hostname "www.") ns = "" then st
          else st.log ("using cookie file: " ++ cookieFileName (trimPrefix u.hostname "www.") ns))
      = st0 at h0
    obtain ⟨hv, hd, hr⟩ := h0 st0 rfl
    generalize cookieFileName (trimPrefix u.hostname "www.") ns = cookie
    have hf := ho.fetch st.v.Name u cookie st0.dir
    rcases hx : env.exec (downloadCmd st.v.Name u cookie) st0.dir with ⟨r, d⟩
    rw [hx] at hf
    have hrun : st0.run env (downloadCmd st.v.Name u cookie) =
        (r, { (st0.emit (.exec (downloadCmd st.v.Name u cookie))) with dir := d }) := by
      simp [St.run, hx]
    rw [hrun]
    cases r with
    | error e =>
      simp only at hf ⊢
      refine ⟨?_, by simp [hv, hnone]⟩
      intro x hx
      exact hclean x (by rw [← hd]; exact (hf x).mp hx)
    | ok o =>
      simp only at hf ⊢
      obtain ⟨ext, hext⟩ := hf
      have hfind := find_orderly env ho
        { (st0.emit (.exec (downloadCmd st.v.Name u cookie))) with dir := d }
        (st.v.Name ++ "." ++ ext)
        ((hext _).mpr (Or.inr rfl))
        (by simp only [emit_v, hv]; rw [String.append_assoc]; exact hasPrefix_append _ _)
        (by
          intro x hx hp
          simp only [emit_v, hv] at hp
          rcases (hext x).mp hx with h | h
          · rw [hd] at h
            rw [hclean x h] at hp
            cases hp
          · exact h)
      rw [hfind]
      simp only
      refine ⟨⟨ext, ?_, ?_, ?_, ?_, ?_⟩, by simp [hr]⟩
      · simp [hv]
      · simp only [emit_v, hv]
        exact (hext _).mpr (Or.inr rfl)
      · intro x hx hp
        simp only [emit_v, hv]
        rcases (hext x).mp hx with h | h
        · rw [hd] at h
          rw [hclean x h] at hp
          cases hp
        · exact h
      · simp only [emit_v, hv]
        rw [hasPrefix_iff]
      · intro r hr0
        simp only [emit_trace, removals_append, removals_exec, removals_nil,
          List.append_nil, hr, hrem] at hr0
        cases hr0


/-- C9, the refuted reading: with file operations that may fail, a run can leave a file
behind. In the example world where `os.Remove` fails, the fetched `75.webm` is still in the
directory after the run, and nothing was ever removed. -/
theorem cleanup_fails_with_remove :
    ¬ (∀ (env : Env) (req : Request) (dir : Dir),
        (∀ x ∈ dir, hasPrefix x (hexEncode req.url) = false) →
        ∀ x ∈ (handleEmbed env req dir).2.dir, hasPrefix x (hexEncode req.url) = false) ∧
    (handleEmbed (stubbornEnv (.ok "h264") "12.5\n" 10000000) sampleRequest ["."]).2.dir =
      [".", "75.webm"] ∧
    removals
      (handleEmbed (stubbornEnv (.ok "h264") "12.5\n" 10000000) sampleRequest ["."]).2.trace
      = [] ∧
    Event.log "could not delete video: operation not permitted" ∈
      (handleEmbed (stubbornEnv (.ok "h264") "12.5\n" 10000000) sampleRequest ["."]).2.trace := by
  refine ⟨?_, by decide, by decide, by decide⟩
  intro h
  have h1 := h (stubbornEnv (.ok "h264") "12.5\n" 10000000) sampleRequest ["."] (by decide)
    "75.webm" (by decide)
  exact absurd h1 (by decide)

/-- C9, amended: in a world that keeps to the contract of the tools and of the file system
(`Orderly`), starting from a directory with no entry that starts with the hex name of the
URL, after every run of `handleEmbed`, whichever stage succeeds or fails, the directory has
no entry that starts with that name, and the file the artifact was last opened on, if there
is one, has been removed exactly once. -/
theorem cleanup_in_orderly_world (env : Env) (req : Request) (dir : Dir) (ho : Orderly env)
    (hclean : ∀ x ∈ dir, hasPrefix x (hexEncode req.url) = false) :
    (∀ x ∈ (handleEmbed env req dir).2.dir, hasPrefix x (hexEncode req.url) = false) ∧
    (∀ f, (handleEmbed env req dir).2.v.File = some f →
      (removals (handleEmbed env req dir).2.trace).count f = 1) := by
  have hst1 : ∀ st1 : St, st1 = (match env.ack with
      | some e => (initial req dir).log ("could not respond to interaction: " ++ e)
      | none => (initial req dir).emit .deferred) →
      st1.v = { Name := hexEncode req.url, File := none } ∧ st1.dir = dir ∧
      removals st1.trace = [] := by
    intro st1 h
    subst h
    split <;> exact ⟨rfl, rfl, by simp [initial]⟩
  unfold handleEmbed
  simp only
  generalize (match env.ack with
      | some e => (initial req dir).log ("could not respond to interaction: " ++ e)
      | none => (initial req dir).emit .deferred) = st1 at hst1
  obtain ⟨hv, hd, hr⟩ := hst1 st1 rfl
  cases hp : req.parsed with
  | error e =>
    simp only [say_dir, say_v, hd, hv]
    exact ⟨hclean, fun f hf => by cases hf⟩
  | ok u =>
    simp only
    have hdl := download_orderly env ho u
      ((st1.emit (.setName (hexEncode req.url))).log ("downloading video: " ++ u.text))
      (by simp [hv]) (by simpa [hv, hd] using hclean) (by simp [hr])
    rcases hx : download env u
      ((st1.emit (.setName (hexEncode req.url))).log ("downloading video: " ++ u.text))
      with ⟨r, st2⟩
    rw [hx] at hdl
    cases r with
    | err m =>
      simp only [log_v, emit_v, hv] at hdl
      simp only [say_dir, say_v]
      exact ⟨hdl.1, fun f hf => by rw [hdl.2] at hf; cases hf⟩
    | crash => exact absurd hdl id
    | ok o =>
      simp only [log_v, emit_v, hv] at hdl
      simp only
      have hb := tidy_body env ho (hexEncode req.url) req st2 hdl.1
      obtain ⟨c1, f, c2, c3⟩ := cleanup_of_tidy env ho (hexEncode req.url) (body env req st2) hb
      refine ⟨c1, fun g hg => ?_⟩
      rw [c2] at hg
      cases hg
      exact c3

theorem template_name (name : String) :
    String.mk ((name ++ ".%(ext)s").data.take ((name ++ ".%(ext)s").data.length - 8)) ++ ".webm"
      = name ++ "." ++ "webm" := by
  have h8 : (".%(ext)s" : String).data.length = 8 := by decide
  have : (name ++ ".%(ext)s").data.take ((name ++ ".%(ext)s").data.length - 8) = name.data := by
    simp only [String.data_append, List.length_append, h8, Nat.add_sub_cancel]
    exact List.take_left' rfl
  rw [this, String.append_assoc]
  rfl

theorem calmEnv_orderly (codecOut : Except String String) (durationOut : String) (size : Int) :
    Orderly (calmEnv codecOut durationOut size) where
  lstat_ok := fun _ _ => rfl
  open_ok := fun name dir h => by simp [calmEnv, h]
  remove_ok := fun name dir h => by
    simp only [calmEnv, h, if_true, true_and]
    intro x
    simp [List.mem_filter]
  codec_probe := fun f dir x => by
    simp only [calmEnv, codecCmd]
    split <;> rfl
  duration_probe := fun f dir x => by
    simp only [calmEnv, durationCmd]
    split <;> rfl
  fetch := fun name u cookie dir => by
    have h : (calmEnv codecOut durationOut size).exec (downloadCmd name u cookie) dir =
        (.ok "", dir ++ [name ++ "." ++ "webm"]) := by
      unfold downloadCmd
      split
      · simp only [calmEnv]; rw [template_name]
      · simp only [calmEnv]; rw [template_name]
    rw [h]
    exact ⟨"webm", fun x => by simp⟩
  encode := fun args dir h => by
    cases args with
    | nil => cases h
    | cons a rest =>
      simp only [List.head?_cons, Option.some.injEq] at h
      subst h
      simp only [calmEnv]
      intro x
      simp

/-- Witness for C9: the example run that converts and then compresses, in the orderly
example world, from a directory that holds only `.`. -/
theorem cleanup_in_orderly_world_witness :
    (∀ x ∈ ["."], hasPrefix x (hexEncode sampleRequest.url) = false) ∧
    (handleEmbed (calmEnv (.ok "vp9\n") "12.5\n" 30000000) sampleRequest ["."]).2.dir.all
      (fun x => !hasPrefix x (hexEncode sampleRequest.url)) = true ∧
    (removals
      (handleEmbed (calmEnv (.ok "vp9\n") "12.5\n" 30000000) sampleRequest ["."]).2.trace).count
      "75-convert-compress.mp4" = 1 := by
  have h := cleanup_in_orderly_world (calmEnv (.ok "vp9\n") "12.5\n" 30000000) sampleRequest
    ["."] (calmEnv_orderly _ _ _) (by decide)
  refine ⟨by decide, ?_, h.2 "75-convert-compress.mp4" (by decide)⟩
  rw [List.all_eq_true]
  intro x hx
  simp [h.1 x hx]


/-- Witness for C2: the probed string `125.7`, and a probe that prints `N/A`. -/
theorem compress_length_of_numeral_witness :
    beforeDot "125.7" = itoa 125 ∧ intMin ≤ 125 ∧ (125 : Int) < intMax ∧
    compressLength "125.7" = .ok (125 + 1) ∧
    (∃ e, (compress (calmEnv (.ok "vp9\n") "N/A\n" 30000000)
        { dir := [".", "75.webm"], v := { Name := "75", File := some "75.webm" },
          trace := [] }).1 = .err e ∧
      (compress (calmEnv (.ok "vp9\n") "N/A\n" 30000000)
        { dir := [".", "75.webm"], v := { Name := "75", File := some "75.webm" },
          trace := [] }).2.trace = [] ++ [.exec (durationCmd "75.webm")]) :=
  ⟨by decide, by decide, by decide,
    (compress_length_of_numeral "125.7" 125 (by decide) (by decide) (by decide)).1,
    (compress_length_of_numeral "125.7" 125 (by decide) (by decide) (by decide)).2.2
      (calmEnv (.ok "vp9\n") "N/A\n" 30000000)
      { dir := [".", "75.webm"], v := { Name := "75", File := some "75.webm" }, trace := [] }
      "75.webm" "N/A\n" (by decide) (by decide) (Or.inl (by decide))⟩

end Embedder
